import Mathlib

/-!
Shallow embedding of the IR generation context
(`libsolidity/codegen/ir/IRGenerationContext.{h,cpp}`) and of the
reasoning-based Yul simplifier
(`libyul/optimiser/ReasoningBasedSimplifier.{h,cpp}`).

AST pointers are modelled by the stable numeric identity (`id`) of the
referenced node where only membership and deduplication of a `std::set` /
`std::map` over such pointers matter; where the set's own iteration order is
at issue (the generation queue's `*begin()`), pointers are modelled
address-faithfully, as (allocation address, node) pairs ordered by address.
Failed `solAssert` checks are modelled by `Option.none` (an assertion
failure aborts compilation).
-/

set_option linter.unusedVariables false

/-! ### Decimal rendering, the model of C++ `std::to_string` -/

/-- Model of `std::to_string` on unsigned integers: the list of decimal
digit characters of `n`, most significant first. -/
def decDigits (n : Nat) : List Char :=
  if h : n < 10 then [Nat.digitChar n]
  else decDigits (n / 10) ++ [Nat.digitChar (n % 10)]
termination_by n
decreasing_by
  exact Nat.div_lt_self (by omega) (by omega)

/-- Model of `std::to_string`: the decimal string of `n`. -/
def natToString (n : Nat) : String :=
  String.mk (decDigits n)

theorem decDigits_eq (n : Nat) :
    decDigits n =
      if n < 10 then [Nat.digitChar n]
      else decDigits (n / 10) ++ [Nat.digitChar (n % 10)] := by
  rw [decDigits]
  split <;> simp

theorem digitChar_inj : ∀ a < 10, ∀ b < 10, Nat.digitChar a = Nat.digitChar b → a = b := by
  decide

theorem digitChar_ne_underscore : ∀ a < 10, Nat.digitChar a ≠ '_' := by
  decide

theorem decDigits_ne_nil (n : Nat) : decDigits n ≠ [] := by
  rw [decDigits]
  split <;> simp

theorem underscore_not_mem_decDigits (n : Nat) : '_' ∉ decDigits n := by
  induction n using Nat.strong_induction_on with
  | _ n ih =>
    rw [decDigits]
    split
    · next h =>
      simp only [List.mem_singleton]
      intro hc
      exact digitChar_ne_underscore n h hc.symm
    · next h =>
      intro hc
      rcases List.mem_append.mp hc with h1 | h2
      · exact ih (n / 10) (Nat.div_lt_self (by omega) (by omega)) h1
      · simp only [List.mem_singleton] at h2
        exact digitChar_ne_underscore (n % 10) (Nat.mod_lt n (by omega)) h2.symm

theorem decDigits_inj : ∀ m n : Nat, decDigits m = decDigits n → m = n := by
  intro m
  induction m using Nat.strong_induction_on with
  | _ m ih =>
    intro n heq
    rw [decDigits_eq m, decDigits_eq n] at heq
    by_cases hm : m < 10 <;> by_cases hn : n < 10
    · rw [if_pos hm, if_pos hn] at heq
      exact digitChar_inj m hm n hn (List.singleton_inj.mp heq)
    · rw [if_pos hm, if_neg hn] at heq
      have : (1 : Nat) = (decDigits (n / 10)).length + 1 := by
        simpa using congrArg List.length heq
      have hnil : decDigits (n / 10) = [] := List.length_eq_zero.mp (by omega)
      exact absurd hnil (decDigits_ne_nil _)
    · rw [if_neg hm, if_pos hn] at heq
      have : (decDigits (m / 10)).length + 1 = 1 := by
        simpa using congrArg List.length heq
      have hnil : decDigits (m / 10) = [] := List.length_eq_zero.mp (by omega)
      exact absurd hnil (decDigits_ne_nil _)
    · rw [if_neg hm, if_neg hn] at heq
      have hlast : Nat.digitChar (m % 10) = Nat.digitChar (n % 10) :=
        List.singleton_inj.mp (List.append_inj_right heq (by
          have := congrArg List.length heq
          simp at this
          omega))
      have hinit : decDigits (m / 10) = decDigits (n / 10) :=
        List.append_inj_left heq (by
          have := congrArg List.length heq
          simp at this
          omega)
      have hdiv : m / 10 = n / 10 :=
        ih (m / 10) (Nat.div_lt_self (by omega) (by omega)) (n / 10) hinit
      have hmod : m % 10 = n % 10 :=
        digitChar_inj (m % 10) (Nat.mod_lt m (by omega)) (n % 10) (Nat.mod_lt n (by omega)) hlast
      omega

/-- In a character list of shape `a ++ '_' :: d` where `d` holds no
underscore, `d` is determined: it is the maximal underscore-free suffix. -/
theorem takeWhile_no_underscore (xs : List Char) (r : List Char) (hxs : '_' ∉ xs) :
    (xs ++ '_' :: r).takeWhile (fun c => c != '_') = xs := by
  induction xs with
  | nil => simp [List.takeWhile]
  | cons c cs ihc =>
    simp only [List.mem_cons, not_or] at hxs
    have hc : (c != '_') = true := bne_iff_ne.mpr (fun hcc => hxs.1 hcc.symm)
    rw [List.cons_append, List.takeWhile_cons, hc]
    simp only [if_true, ihc hxs.2]

theorem suffix_after_underscore {a b d e : List Char}
    (hd : '_' ∉ d) (he : '_' ∉ e)
    (h : a ++ '_' :: d = b ++ '_' :: e) : d = e := by
  have hrev : d.reverse ++ '_' :: a.reverse = e.reverse ++ '_' :: b.reverse := by
    have := congrArg List.reverse h
    simpa [List.reverse_append] using this
  have hd' : '_' ∉ d.reverse := by simpa using hd
  have he' : '_' ∉ e.reverse := by simpa using he
  have := congrArg (List.takeWhile (fun c => c != '_')) hrev
  rw [takeWhile_no_underscore _ _ hd', takeWhile_no_underscore _ _ he'] at this
  simpa using congrArg List.reverse this

/-! ### Data model (`IRGenerationContext.h`) -/

/-- `Arity` from `IRGenerationContext.h`: number of stack slots consumed
(`in`, here `ins`) and produced (`out`, here `outs`) by a function.
Equality is fieldwise; `std::less` is specialised to the lexicographic
order on `(in, out)`. -/
structure Arity where
  ins : Nat
  outs : Nat
deriving DecidableEq, Repr

/-- The `std::less<Arity>` specialisation from `IRGenerationContext.h`. -/
def Arity.lt (a b : Arity) : Bool :=
  a.ins < b.ins || (a.ins == b.ins && a.outs < b.outs)

/-- Modelled from the spec: a frontend AST function declaration (an external
collaborator of this core) with its stable numeric identity, declared name,
canonical calling-convention arity and constructor flag.  In the embedding a
`FunctionDefinition const*` is identified with the node it points to. -/
structure FunctionDefinition where
  id : Nat
  name : String
  arity : Arity
  isConstructor : Bool
deriving DecidableEq, Repr

/-- Modelled from the spec: a frontend AST variable declaration (external
collaborator) with the attributes consulted by `registerImmutableVariable`:
its identity, name, immutability flag, value-type-ness and the memory head
size of its type. -/
structure VariableDeclaration where
  id : Nat
  name : String
  immutable : Bool
  isValueType : Bool
  memoryHeadSize : Nat
deriving DecidableEq, Repr

/-- `IRGenerationContext::functionArity(FunctionDefinition const&)`.
Modelled from the spec: the stack arity of the function's canonical calling
convention, carried directly on the modelled declaration (the type-system
computation `sizeOnStack` lives in the external AST layer). -/
def functionArity (f : FunctionDefinition) : Arity :=
  f.arity

/-- `std::set<FunctionDefinition const*>` insertion, the set keyed here by
the node identity that stands for the pointer.  Inserting an already-present
identity is a no-op, as for `std::set`.  This identity-keyed abstraction is
adequate where only membership and deduplication are observable; the
source's actual iteration order is pointer-address order, which
`insertFunPtr` below models faithfully where that order itself matters. -/
def insertFun (f : FunctionDefinition) : List FunctionDefinition → List FunctionDefinition
  | [] => [f]
  | g :: gs =>
    if f.id < g.id then f :: g :: gs
    else if f.id = g.id then g :: gs
    else g :: insertFun f gs

/-- An `InternalDispatchMap` (`std::map<Arity, std::set<FunctionDefinition const*>>`),
modelled as an association list with unique keys. -/
abbrev InternalDispatchMap := List (Arity × List FunctionDefinition)

/-- `std::map::find` on the modelled map. -/
def lookupArity (m : InternalDispatchMap) (a : Arity) : Option (List FunctionDefinition) :=
  match m with
  | [] => none
  | (k, v) :: rest => if k = a then some v else lookupArity rest a

/-- `std::map` insertion at a fresh key (`operator[]` on an absent key /
the inserting half of `try_emplace`), keeping keys sorted as `std::map`
does. -/
def insertArity (m : InternalDispatchMap) (a : Arity) (v : List FunctionDefinition) :
    InternalDispatchMap :=
  match m with
  | [] => [(a, v)]
  | (k, w) :: rest =>
    if Arity.lt a k then (a, v) :: (k, w) :: rest
    else if k = a then (k, v) :: rest
    else (k, w) :: insertArity rest a v

/-- `std::map::try_emplace` with a default-constructed (empty) value:
inserts `(a, ∅)` when `a` is absent, otherwise leaves the map unchanged. -/
def tryEmplaceArity (m : InternalDispatchMap) (a : Arity) : InternalDispatchMap :=
  match lookupArity m a with
  | some _ => m
  | none => insertArity m a []

/-- Replacing the value stored under an existing key (writing through a
`std::map` iterator). -/
def updateArity (m : InternalDispatchMap) (a : Arity) (v : List FunctionDefinition) :
    InternalDispatchMap :=
  match m with
  | [] => []
  | (k, w) :: rest =>
    if k = a then (k, v) :: rest else (k, w) :: updateArity rest a v

/-- `std::map::erase` of the entry found for a key (unique-key maps: the
first and only matching entry is removed). -/
def eraseArity (m : InternalDispatchMap) (a : Arity) : InternalDispatchMap :=
  match m with
  | [] => []
  | (k, w) :: rest =>
    if k = a then rest else (k, w) :: eraseArity rest a

/-- Modelled from the spec: `MultiUseYulFunctionCollector`, the name-keyed
memoisation of generated Yul helper functions, as the list of
`(name, code)` pairs created so far. -/
abbrev FunctionCollector := List (String × String)

/-- Membership test of a name in the collector (`m_functions.contains`). -/
def containsName (fns : FunctionCollector) (name : String) : Bool :=
  fns.any (fun p => p.1 == name)

/-- Modelled from the spec: `MultiUseYulFunctionCollector::createFunction`,
which memoises by name — the creator is run and its result stored only if
the name has not been requested before. -/
def createFunction (fns : FunctionCollector) (name : String) (code : String) :
    FunctionCollector :=
  if containsName fns name then fns else fns ++ [(name, code)]

/-- The fields of `IRGenerationContext` that the verified operations
consult.  `reservedMemory = none` models the drained `std::optional`. -/
structure IRGenerationContext where
  functions : FunctionCollector
  functionGenerationQueue : List FunctionDefinition
  immutableVariables : List (Nat × Nat)
  reservedMemory : Option Nat
  internalDispatch : InternalDispatchMap
  internalDispatchCandidates : InternalDispatchMap
  dispatchableInternalFunctionReferences : List (Nat × FunctionDefinition)
deriving Repr

/-- `CompilerUtils::generalPurposeMemoryStart`.  Modelled from the spec:
the fixed base of the general-purpose memory region (the constant lives in
`CompilerUtils.h`, outside this excerpt). -/
def generalPurposeMemoryStart : Nat := 128

/-! ### Naming and queue operations (`IRGenerationContext.cpp`) -/

/-- `IRGenerationContext::functionName(FunctionDefinition const&)`:
`"fun_" + name + "_" + to_string(id)`. -/
def functionName (f : FunctionDefinition) : String :=
  "fun_" ++ f.name ++ "_" ++ natToString f.id

/-- `IRGenerationContext::internalDispatchFunctionName`. -/
def internalDispatchFunctionName (a : Arity) : String :=
  "dispatch_internal" ++ "_in_" ++ natToString a.ins ++ "_out_" ++ natToString a.outs

/-- The queue update of `IRGenerationContext::enqueueFunctionForCodeGeneration`:
the function is inserted only when its name has not been handed to the
collector yet. -/
def enqueueCore (fns : FunctionCollector) (q : List FunctionDefinition)
    (f : FunctionDefinition) : List FunctionDefinition :=
  if containsName fns (functionName f) then q else insertFun f q

/-- `IRGenerationContext::enqueueFunctionForCodeGeneration`. -/
def enqueueFunctionForCodeGeneration (ctx : IRGenerationContext)
    (f : FunctionDefinition) : String × IRGenerationContext :=
  (functionName f,
   { ctx with
       functionGenerationQueue :=
         enqueueCore ctx.functions ctx.functionGenerationQueue f })

/-- `IRGenerationContext::dequeueFunctionForCodeGeneration`: `solAssert`
failure on an empty queue, otherwise `*begin()` is removed and returned. -/
def dequeueFunctionForCodeGeneration (ctx : IRGenerationContext) :
    Option (FunctionDefinition × IRGenerationContext) :=
  match ctx.functionGenerationQueue with
  | [] => none
  | f :: rest => some (f, { ctx with functionGenerationQueue := rest })

/-! ### Immutable variables (`IRGenerationContext.cpp`) -/

/-- Update-or-insert on the `declaration identity → offset` map
(`m_immutableVariables[&_variable] = offset`). -/
def setOffset (m : List (Nat × Nat)) (k v : Nat) : List (Nat × Nat) :=
  match m with
  | [] => [(k, v)]
  | (k', v') :: rest =>
    if k' = k then (k', v) :: rest else (k', v') :: setOffset rest k v

/-- Lookup on the `declaration identity → offset` map. -/
def lookupOffset (m : List (Nat × Nat)) (k : Nat) : Option Nat :=
  match m with
  | [] => none
  | (k', v') :: rest => if k' = k then some v' else lookupOffset rest k

/-- `IRGenerationContext::registerImmutableVariable`: guards (immutability,
value type, reservation still open, exactly one word of memory head) are
`solAssert`/`solUnimplementedAssert` failures, modelled as `none`;
otherwise the variable is assigned the next offset and the cursor advances
by the type's memory head size. -/
def registerImmutableVariable (ctx : IRGenerationContext)
    (v : VariableDeclaration) : Option IRGenerationContext :=
  if !v.immutable then none
  else if !v.isValueType then none
  else
    match ctx.reservedMemory with
    | none => none
    | some r =>
      let ctx1 :=
        { ctx with
            immutableVariables :=
              setOffset ctx.immutableVariables v.id (generalPurposeMemoryStart + r) }
      if v.memoryHeadSize ≠ 32 then none
      else some { ctx1 with reservedMemory := some (r + v.memoryHeadSize) }

/-- `IRGenerationContext::immutableMemoryOffset`: `solAssert` failure when
the variable was never registered. -/
def immutableMemoryOffset (ctx : IRGenerationContext) (v : VariableDeclaration) :
    Option Nat :=
  lookupOffset ctx.immutableVariables v.id

/-- `IRGenerationContext::reservedMemory`: returns the reserved total and
resets the optional; a second call is a `solAssert` failure. -/
def reservedMemory (ctx : IRGenerationContext) : Option (Nat × IRGenerationContext) :=
  match ctx.reservedMemory with
  | none => none
  | some r => some (r, { ctx with reservedMemory := none })

/-! ### Internal dispatch protocol (`IRGenerationContext.cpp`) -/

/-- `IRGenerationContext::internalDispatchClean`. -/
def internalDispatchClean (ctx : IRGenerationContext) : Bool :=
  ctx.internalDispatch.isEmpty &&
  ctx.internalDispatchCandidates.isEmpty &&
  ctx.dispatchableInternalFunctionReferences.isEmpty

/-- `IRGenerationContext::setInternalDispatchCandidates`: `solAssert` that
the dispatch state is clean, then install the supplied map. -/
def setInternalDispatchCandidates (ctx : IRGenerationContext)
    (m : InternalDispatchMap) : Option IRGenerationContext :=
  if internalDispatchClean ctx then
    some { ctx with internalDispatchCandidates := m }
  else none

/-- `IRGenerationContext::registerInternalDispatch`: `try_emplace` the arity
into the dispatch map and return the dispatcher name. -/
def registerInternalDispatch (ctx : IRGenerationContext) (a : Arity) :
    String × IRGenerationContext :=
  (internalDispatchFunctionName a,
   { ctx with internalDispatch := tryEmplaceArity ctx.internalDispatch a })

/-- Enqueueing every function of a set in its iteration order
(the `for` loop over `candidateIt->second` in
`moveCollectedReferencesToDispatch`). -/
def enqueueAll (fns : FunctionCollector) (q : List FunctionDefinition)
    (l : List FunctionDefinition) : List FunctionDefinition :=
  l.foldl (enqueueCore fns) q

/-- First loop of `IRGenerationContext::moveCollectedReferencesToDispatch`:
walk the dispatch-map entries; for each arity that also keys the candidates
map, `solAssert` that the dispatch entry is still empty, enqueue all
candidates of that arity, move them into the dispatch entry and erase the
candidate bucket. -/
def promoteLoop (fns : FunctionCollector) :
    InternalDispatchMap → InternalDispatchMap → List FunctionDefinition →
    Option (InternalDispatchMap × InternalDispatchMap × List FunctionDefinition)
  | [], cands, q => some ([], cands, q)
  | (a, fs) :: rest, cands, q =>
    match lookupArity cands a with
    | none =>
      (promoteLoop fns rest cands q).map
        (fun r => ((a, fs) :: r.1, r.2.1, r.2.2))
    | some cfs =>
      if fs.isEmpty then
        (promoteLoop fns rest (eraseArity cands a) (enqueueAll fns q cfs)).map
          (fun r => ((a, cfs) :: r.1, r.2.1, r.2.2))
      else none

/-- Second loop of `IRGenerationContext::moveCollectedReferencesToDispatch`:
file every pending reference into the dispatch map (enqueueing it) when its
arity is registered, into an existing candidate bucket otherwise, or into a
fresh candidate bucket; an arity keying both maps is a `solAssert`
failure. -/
def referenceLoop (fns : FunctionCollector) :
    List (Nat × FunctionDefinition) → InternalDispatchMap → InternalDispatchMap →
    List FunctionDefinition →
    Option (InternalDispatchMap × InternalDispatchMap × List FunctionDefinition)
  | [], disp, cands, q => some (disp, cands, q)
  | (_, f) :: rest, disp, cands, q =>
    let a := functionArity f
    match lookupArity disp a, lookupArity cands a with
    | some _, some _ => none
    | some dfs, none =>
      referenceLoop fns rest (updateArity disp a (insertFun f dfs)) cands
        (enqueueCore fns q f)
    | none, some cfs =>
      referenceLoop fns rest disp (updateArity cands a (insertFun f cfs)) q
    | none, none =>
      referenceLoop fns rest disp (insertArity cands a [f]) q

/-- `IRGenerationContext::moveCollectedReferencesToDispatch`. -/
def moveCollectedReferencesToDispatch (ctx : IRGenerationContext) :
    Option IRGenerationContext :=
  match promoteLoop ctx.functions ctx.internalDispatch
      ctx.internalDispatchCandidates ctx.functionGenerationQueue with
  | none => none
  | some (disp1, cands1, q1) =>
    match referenceLoop ctx.functions ctx.dispatchableInternalFunctionReferences
        disp1 cands1 q1 with
    | none => none
    | some (disp2, cands2, q2) =>
      some { ctx with
               internalDispatch := disp2,
               internalDispatchCandidates := cands2,
               functionGenerationQueue := q2,
               dispatchableInternalFunctionReferences := [] }

/-! ### Dispatcher synthesis (`IRGenerationContext::internalDispatch`) -/

/-- One `case` of the synthesized dispatcher: the selector value
(`to_string(function->id())`) and the statically generated name the case
forwards to. -/
structure DispatchCase where
  funID : Nat
  target : String
deriving DecidableEq, Repr

/-- The `for` loop of `IRGenerationContext::internalDispatch` building the
`cases` vector: per function, `solAssert` that its arity matches, that it
is not a constructor and that its identity is non-zero (0 is reserved for
uninitialized function pointers); each surviving function contributes one
case mapping its identity to its generated name. -/
def internalDispatchCases (a : Arity) :
    List FunctionDefinition → Option (List DispatchCase)
  | [] => some []
  | f :: fs =>
    if functionArity f ≠ a then none
    else if f.isConstructor then none
    else if f.id = 0 then none
    else (internalDispatchCases a fs).map
      (fun cs => ⟨f.id, functionName f⟩ :: cs)

/-- Modelled from the spec: `suffixedVariableNameList` from
`libsolutil/StringUtils` — the comma-separated list
`pre<start>, …, pre<end-1>`. -/
def suffixedVariableNameList (pre : String) (start stop : Nat) : String :=
  if start ≥ stop then ""
  else if start + 1 = stop then pre ++ natToString start
  else pre ++ natToString start ++ ", " ++ suffixedVariableNameList pre (start + 1) stop
termination_by stop - start
decreasing_by
  omega

/-- Rendering of one dispatcher `case` from the Whiskers template in
`IRGenerationContext::internalDispatch`. -/
def renderDispatchCase (a : Arity) (c : DispatchCase) : String :=
  "case " ++ natToString c.funID ++ " \x7b " ++
  (if a.outs > 0
    then suffixedVariableNameList "out_" 0 a.outs ++ " := "
    else "") ++
  c.target ++ "(" ++ suffixedVariableNameList "in_" 0 a.ins ++ ") \x7d "

/-- Rendering of the dispatcher body: the `cases` section expanded once per
case, always followed by the unconditional `default \x7b invalid() \x7d`
failure case of the template. -/
def renderDispatchBody (a : Arity) (cases : List DispatchCase) : String :=
  String.join (cases.map (renderDispatchCase a)) ++ "default \x7b invalid() \x7d"

/-- Rendering of the whole dispatcher function from the Whiskers template. -/
def renderDispatchFunction (funName : String) (a : Arity) (cases : List DispatchCase) :
    String :=
  "function " ++ funName ++ "(fun" ++ (if a.ins > 0 then "," else "") ++ " " ++
  suffixedVariableNameList "in_" 0 a.ins ++ ") " ++
  (if a.outs > 0 then "->" else "") ++ " " ++
  suffixedVariableNameList "out_" 0 a.outs ++ " \x7b switch fun " ++
  renderDispatchBody a cases ++ " \x7d"

/-- `IRGenerationContext::internalDispatch`: build the cases (with their
`solAssert` guards), then ask the collector for the memoised dispatcher
function of that arity. -/
def internalDispatch (ctx : IRGenerationContext) (a : Arity)
    (functions : List FunctionDefinition) : Option (String × IRGenerationContext) :=
  (internalDispatchCases a functions).map
    (fun cases =>
      let funName := internalDispatchFunctionName a
      (funName,
       { ctx with
           functions :=
             createFunction ctx.functions funName
               (renderDispatchFunction funName a cases) }))

/-! ### SMT layer consumed by the simplifier (`ReasoningBasedSimplifier`) -/

/-- Modelled from the spec: the formula terms the encoder builds over the
prover's integer sort — logical variables, exact integer constants, the
comparison terms used inside `ite`, addition, and `ite`. -/
inductive SMTExpr where
  | var (name : String)
  | const (value : Nat)
  | lt (a b : SMTExpr)
  | gt (a b : SMTExpr)
  | add (a b : SMTExpr)
  | ite (c t e : SMTExpr)
deriving DecidableEq, Repr

/-- Modelled from the spec: the two assertion shapes the simplifier sends to
the prover (`==` and `!=` between terms). -/
inductive SMTFormula where
  | eq (a b : SMTExpr)
  | neq (a b : SMTExpr)
deriving DecidableEq, Repr

/-- Modelled from the spec: the prover's answer set
`{SATISFIABLE, UNSATISFIABLE, UNKNOWN}`. -/
inductive CheckResult where
  | SATISFIABLE
  | UNSATISFIABLE
  | UNKNOWN
deriving DecidableEq, Repr

/-- Modelled from the spec: the incremental prover session — a stack of
assertion frames plus an answering function for `check` (the prover's
internals are an external collaborator; only `push`/`pop`/`assert`/`check`
are consumed). -/
structure Solver where
  frames : List (List SMTFormula)
  oracle : List SMTFormula → CheckResult

/-- `SolverInterface::push`: open a fresh assertion frame. -/
def Solver.push (s : Solver) : Solver :=
  { s with frames := [] :: s.frames }

/-- `SolverInterface::pop`: discard the topmost assertion frame. -/
def Solver.pop (s : Solver) : Solver :=
  { s with frames := s.frames.tail }

/-- `SolverInterface::addAssertion`: record a formula in the topmost
frame. -/
def Solver.addAssertion (s : Solver) (f : SMTFormula) : Solver :=
  match s.frames with
  | [] => { s with frames := [[f]] }
  | fr :: rest => { s with frames := (f :: fr) :: rest }

/-- All currently asserted formulas, over all frames. -/
def Solver.assertions (s : Solver) : List SMTFormula :=
  s.frames.flatten

/-- `SolverInterface::check({})`: satisfiability of everything asserted so
far, answered by the session's prover. -/
def Solver.check (s : Solver) : CheckResult :=
  s.oracle s.assertions

/-! ### Yul AST fragment walked by the simplifier -/

/-- Modelled from the spec: the EVM instructions that dialect builtins
resolve to; the encoder treats `LT`, `GT` and `ADD` specially and every
other instruction generically. -/
inductive Instruction where
  | LT
  | GT
  | ADD
  | MUL
  | SUB
  | DIV
  | ISZERO
deriving DecidableEq, Repr

/-- Modelled from the spec: `EVMDialect::builtin` composed with
`builtin->instruction` — the partial map from Yul function names to EVM
instructions; any other name is a non-builtin call. -/
def evmBuiltinInstruction (name : String) : Option Instruction :=
  if name = "lt" then some .LT
  else if name = "gt" then some .GT
  else if name = "add" then some .ADD
  else if name = "mul" then some .MUL
  else if name = "sub" then some .SUB
  else if name = "div" then some .DIV
  else if name = "iszero" then some .ISZERO
  else none

/-- The Yul expression alternatives of `std::visit` in
`ReasoningBasedSimplifier::encodeExpression`: function calls, identifiers
and (number) literals, a literal carrying its exact integer value
(`valueOfLiteral`). -/
inductive YulExpression where
  | call (fname : String) (args : List YulExpression)
  | ident (name : String)
  | lit (value : Nat)
deriving Repr

/-- The Yul statement alternatives with simplifier overrides
(`VariableDeclaration`, `If`); every other statement kind is walked without
effect and is collapsed into `other`. -/
inductive YulStatement where
  | varDecl (vars : List String) (value : Option YulExpression)
  | ifStmt (cond : YulExpression) (body : List YulStatement)
  | other
deriving Repr

/-- The mutable state of `ReasoningBasedSimplifier`: the up-front set of
single-assignment variables, the tracked variable bindings
(`m_variables`), the fresh-name counter (`m_varCounter`) and the prover
session. -/
structure RBSState where
  ssaVariables : List String
  varMap : List (String × SMTExpr)
  varCounter : Nat
  solver : Solver

/-- Lookup in `m_variables`. -/
def lookupVar (m : List (String × SMTExpr)) (k : String) : Option SMTExpr :=
  match m with
  | [] => none
  | (k', v) :: rest => if k' = k then some v else lookupVar rest k

/-- `std::map::insert` into `m_variables`: a no-op when the key is already
bound. -/
def insertVar (m : List (String × SMTExpr)) (k : String) (v : SMTExpr) :
    List (String × SMTExpr) :=
  match lookupVar m k with
  | some _ => m
  | none => m ++ [(k, v)]

/-- `ReasoningBasedSimplifier::uniqueName`: `"expr_" + to_string(m_varCounter++)`. -/
def uniqueName (k : Nat) : String :=
  "expr_" ++ natToString k

/-- `ReasoningBasedSimplifier::newVariable`: a fresh unconstrained logical
variable of integer sort named by the monotonically increasing counter. -/
def newVariable (st : RBSState) : SMTExpr × RBSState :=
  (SMTExpr.var (uniqueName st.varCounter), { st with varCounter := st.varCounter + 1 })

/-! ### Formula encoding (`encodeExpression` / `encodeBuiltin`) -/

mutual

/-- `ReasoningBasedSimplifier::encodeExpression`.  `none` models the C++
exception thrown by `vector::at` on an argument list too short for a
specially encoded builtin; every other shape encodes. -/
def encodeExpression (st : RBSState) : YulExpression → Option (SMTExpr × RBSState)
  | .call fname args =>
    match evmBuiltinInstruction fname with
    | some instr => encodeBuiltin st instr args
    | none => some (newVariable st)
  | .ident name =>
    if st.ssaVariables.contains name then
      match lookupVar st.varMap name with
      | some v => some (v, st)
      | none => some (newVariable st)
    else some (newVariable st)
  | .lit value => some (.const value, st)
termination_by e => (sizeOf e, 0)

/-- The `applyMap` in `ReasoningBasedSimplifier::encodeBuiltin`: encode the
argument list left to right. -/
def encodeExpressionList (st : RBSState) :
    List YulExpression → Option (List SMTExpr × RBSState)
  | [] => some ([], st)
  | e :: es =>
    match encodeExpression st e with
    | none => none
    | some (x, st1) =>
      match encodeExpressionList st1 es with
      | none => none
      | some (xs, st2) => some (x :: xs, st2)
termination_by es => (sizeOf es, 0)

/-- `ReasoningBasedSimplifier::encodeBuiltin`: arguments are encoded first;
`LT`/`GT` become 0/1-valued `ite` comparisons, `ADD` becomes addition
(wraparound deliberately unmodelled in the source), and every other
instruction falls through to a fresh unconstrained variable. -/
def encodeBuiltin (st : RBSState) (instr : Instruction)
    (args : List YulExpression) : Option (SMTExpr × RBSState) :=
  match encodeExpressionList st args with
  | none => none
  | some (encArgs, st1) =>
    match instr with
    | .LT =>
      match encArgs.get? 0, encArgs.get? 1 with
      | some x, some y => some (.ite (.lt x y) (.const 1) (.const 0), st1)
      | _, _ => none
    | .GT =>
      match encArgs.get? 0, encArgs.get? 1 with
      | some x, some y => some (.ite (.gt x y) (.const 1) (.const 0), st1)
      | _, _ => none
    | .ADD =>
      match encArgs.get? 0, encArgs.get? 1 with
      | some x, some y => some (.add x y, st1)
      | _, _ => none
    | _ => some (newVariable st1)
termination_by (sizeOf args, 1)

end

/-! ### The statement walk (`operator()(VariableDeclaration&)`, `operator()(If&)`) -/

mutual

/-- The simplifier's statement visit.  `varDecl` is
`operator()(VariableDeclaration&)`: single-variable SSA declarations with a
value bind a named logical variable and assert it equal to the encoded
initializer.  `ifStmt` is `operator()(If&)`: the condition is encoded once;
two hypothetical scopes test `condition == 0` and `condition != 0`, each
rewriting the condition to the literal `1` resp. `0` on `UNSATISFIABLE`;
then the taken-branch assumption is pushed around the body visit and popped
on exit. -/
def visitStatement (st : RBSState) : YulStatement → Option (YulStatement × RBSState)
  | .varDecl vars value =>
    match vars, value with
    | [v], some e =>
      if st.ssaVariables.contains v then
        let st1 :=
          { st with varMap := insertVar st.varMap v (SMTExpr.var ("yul_" ++ v)) }
        match encodeExpression st1 e with
        | none => none
        | some (enc, st2) =>
          match lookupVar st2.varMap v with
          | none => none
          | some bv =>
            some (.varDecl vars value,
              { st2 with solver := st2.solver.addAssertion (.eq bv enc) })
      else some (.varDecl vars value, st)
    | _, _ => some (.varDecl vars value, st)
  | .ifStmt cond body =>
    match encodeExpression st cond with
    | none => none
    | some (condEnc, st1) =>
      let sA := (st1.solver.push).addAssertion (.eq condEnc (.const 0))
      let r1 := sA.check
      let sB := sA.pop
      let cond1 := if r1 = .UNSATISFIABLE then YulExpression.lit 1 else cond
      let sC := (sB.push).addAssertion (.neq condEnc (.const 0))
      let r2 := sC.check
      let sD := sC.pop
      let cond2 := if r2 = .UNSATISFIABLE then YulExpression.lit 0 else cond1
      let sE := (sD.push).addAssertion (.neq condEnc (.const 0))
      match visitStatements { st1 with solver := sE } body with
      | none => none
      | some (body', st2) =>
        some (.ifStmt cond2 body', { st2 with solver := st2.solver.pop })
  | .other => some (.other, st)
termination_by s => sizeOf s

/-- `ASTModifier::operator()(Block&)`: visit the statements in order. -/
def visitStatements (st : RBSState) :
    List YulStatement → Option (List YulStatement × RBSState)
  | [] => some ([], st)
  | s :: rest =>
    match visitStatement st s with
    | none => none
    | some (s', st1) =>
      match visitStatements st1 rest with
      | none => none
      | some (rest', st2) => some (s' :: rest', st2)
termination_by l => sizeOf l

end

/-- `ReasoningBasedSimplifier::run`: fresh tracked-variable map, counter and
prover session over the given single-assignment variable set (computed up
front by `SSAValueTracker`, an external collaborator), then the walk. -/
def runSimplifier (oracle : List SMTFormula → CheckResult)
    (ssaVars : List String) (block : List YulStatement) :
    Option (List YulStatement × RBSState) :=
  visitStatements ⟨ssaVars, [], 0, ⟨[[]], oracle⟩⟩ block

/-! ### Helper lemmas -/

theorem pop_addAssertion_push (s : Solver) (f : SMTFormula) :
    ((s.push).addAssertion f).pop = s := by
  cases s with
  | mk frames oracle =>
    simp [Solver.push, Solver.addAssertion, Solver.pop]

theorem functionName_id_inj {f g : FunctionDefinition}
    (h : functionName f = functionName g) : f.id = g.id := by
  have hdata := congrArg String.data h
  simp only [functionName, natToString, String.data_append] at hdata
  have hf : ("fun_".data ++ f.name.data ++ "_".data) ++ (String.mk (decDigits f.id)).data
      = ("fun_".data ++ g.name.data ++ "_".data) ++ (String.mk (decDigits g.id)).data := by
    simpa [List.append_assoc] using hdata
  have hf' : ("fun_".data ++ f.name.data) ++ '_' :: decDigits f.id
      = ("fun_".data ++ g.name.data) ++ '_' :: decDigits g.id := by
    simpa [List.append_assoc] using hf
  exact decDigits_inj _ _
    (suffix_after_underscore (underscore_not_mem_decDigits f.id)
      (underscore_not_mem_decDigits g.id) hf')

theorem mem_insertFun {f x : FunctionDefinition} :
    ∀ {q : List FunctionDefinition}, x ∈ insertFun f q → x = f ∨ x ∈ q := by
  intro q
  induction q with
  | nil => simp [insertFun]
  | cons g gs ih =>
    simp only [insertFun]
    split
    · intro h
      rcases List.mem_cons.mp h with h | h
      · exact Or.inl h
      · exact Or.inr h
    · split
      · intro h
        exact Or.inr h
      · intro h
        rcases List.mem_cons.mp h with h | h
        · exact Or.inr (List.mem_cons.mpr (Or.inl h))
        · rcases ih h with h | h
          · exact Or.inl h
          · exact Or.inr (List.mem_cons.mpr (Or.inr h))

theorem insertFun_pairwise {f : FunctionDefinition} :
    ∀ {q : List FunctionDefinition},
      q.Pairwise (fun a b => a.id < b.id) →
      (insertFun f q).Pairwise (fun a b => a.id < b.id) := by
  intro q
  induction q with
  | nil => simp [insertFun]
  | cons g gs ih =>
    intro hq
    rw [List.pairwise_cons] at hq
    simp only [insertFun]
    split
    · next hlt =>
      rw [List.pairwise_cons]
      refine ⟨?_, List.pairwise_cons.mpr hq⟩
      intro x hx
      rcases List.mem_cons.mp hx with h | h
      · exact h ▸ hlt
      · exact Nat.lt_trans hlt (hq.1 x h)
    · split
      · exact List.pairwise_cons.mpr hq
      · next hlt heq =>
        rw [List.pairwise_cons]
        refine ⟨?_, ih hq.2⟩
        intro x hx
        rcases mem_insertFun hx with h | h
        · subst h
          omega
        · exact hq.1 x h

theorem count_le_one_of_pairwise {f : FunctionDefinition} :
    ∀ {q : List FunctionDefinition},
      q.Pairwise (fun a b => a.id < b.id) → q.count f ≤ 1 := by
  intro q
  induction q with
  | nil => simp
  | cons g gs ih =>
    intro hq
    rw [List.pairwise_cons] at hq
    rw [List.count_cons]
    by_cases hfg : f = g
    · subst hfg
      have : f ∉ gs := fun hmem => absurd (hq.1 f hmem) (by omega)
      rw [List.count_eq_zero_of_not_mem this]
      simp
    · have : (g == f) = false := by
        simp [beq_iff_eq]
        exact fun hc => hfg hc.symm
      rw [this]
      simpa using ih hq.2

/-- Key list of a modelled `InternalDispatchMap`. -/
def arityKeys (m : InternalDispatchMap) : List Arity :=
  m.map Prod.fst

theorem lookupArity_isSome_iff_mem {m : InternalDispatchMap} {a : Arity} :
    (lookupArity m a).isSome ↔ a ∈ arityKeys m := by
  induction m with
  | nil => simp [lookupArity, arityKeys]
  | cons p rest ih =>
    obtain ⟨k, v⟩ := p
    simp only [lookupArity, arityKeys, List.map_cons, List.mem_cons]
    by_cases hk : k = a
    · subst hk
      simp
    · rw [if_neg hk, ih]
      simp only [arityKeys]
      constructor
      · exact Or.inr
      · intro h
        rcases h with h | h
        · exact absurd h.symm hk
        · exact h

theorem lookupArity_insertArity (m : InternalDispatchMap) (a b : Arity)
    (v : List FunctionDefinition) :
    lookupArity (insertArity m a v) b = if b = a then some v else lookupArity m b := by
  induction m with
  | nil =>
    simp only [insertArity, lookupArity]
    by_cases hb : b = a
    · simp [hb]
    · rw [if_neg hb, if_neg (fun h => hb h.symm)]
  | cons p rest ih =>
    obtain ⟨k, w⟩ := p
    simp only [insertArity]
    split
    · simp only [lookupArity]
      by_cases hb : b = a
      · simp [hb]
      · rw [if_neg hb, if_neg (fun h => hb h.symm)]
    · split
      · next hlt hk =>
        subst hk
        simp only [lookupArity]
        by_cases hb : b = k
        · simp [hb]
        · rw [if_neg hb, if_neg (fun h => hb h.symm), if_neg (fun h => hb h.symm)]
      · next hlt hk =>
        simp only [lookupArity, ih]
        by_cases hkb : k = b
        · subst hkb
          rw [if_pos rfl, if_neg hk, if_pos rfl]
        · rw [if_neg hkb, if_neg hkb]

theorem lookupArity_updateArity_isSome (m : InternalDispatchMap) (a b : Arity)
    (v : List FunctionDefinition) :
    (lookupArity (updateArity m a v) b).isSome = (lookupArity m b).isSome := by
  induction m with
  | nil => simp [updateArity]
  | cons p rest ih =>
    obtain ⟨k, w⟩ := p
    simp only [updateArity]
    split
    · next hk =>
      subst hk
      simp only [lookupArity]
      split <;> simp [ih]
    · simp only [lookupArity]
      split <;> simp [ih]

theorem arityKeys_eraseArity_sublist (m : InternalDispatchMap) (a : Arity) :
    (arityKeys (eraseArity m a)).Sublist (arityKeys m) := by
  induction m with
  | nil => simp [eraseArity]
  | cons p rest ih =>
    obtain ⟨k, w⟩ := p
    simp only [eraseArity]
    split
    · exact (List.sublist_cons_self _ _)
    · simpa [arityKeys] using List.Sublist.cons₂ k ih

theorem lookupArity_eraseArity_self {m : InternalDispatchMap} {a : Arity}
    (hnodup : (arityKeys m).Nodup) : lookupArity (eraseArity m a) a = none := by
  induction m with
  | nil => simp [eraseArity, lookupArity]
  | cons p rest ih =>
    obtain ⟨k, w⟩ := p
    simp only [arityKeys, List.map_cons, List.nodup_cons] at hnodup
    simp only [eraseArity]
    split
    · next hk =>
      subst hk
      rcases h : lookupArity rest k with _ | v
      · rfl
      · have : k ∈ arityKeys rest := lookupArity_isSome_iff_mem.mp (by simp [h])
        exact absurd this hnodup.1
    · next hk =>
      simp only [lookupArity, if_neg hk]
      exact ih hnodup.2

theorem lookupArity_eraseArity_isSome {m : InternalDispatchMap} {a b : Arity}
    (h : (lookupArity (eraseArity m a) b).isSome) : (lookupArity m b).isSome := by
  rw [lookupArity_isSome_iff_mem] at h ⊢
  exact (arityKeys_eraseArity_sublist m a).mem h

theorem lookupOffset_setOffset (m : List (Nat × Nat)) (k v k' : Nat) :
    lookupOffset (setOffset m k v) k' = if k' = k then some v else lookupOffset m k' := by
  induction m with
  | nil =>
    simp only [setOffset, lookupOffset]
    by_cases hk : k' = k
    · simp [hk]
    · rw [if_neg hk, if_neg (fun h => hk h.symm)]
  | cons p rest ih =>
    obtain ⟨k0, v0⟩ := p
    simp only [setOffset]
    split
    · next hk =>
      subst hk
      simp only [lookupOffset]
      by_cases hk' : k0 = k'
      · subst hk'
        simp
      · rw [if_neg hk', if_neg hk', if_neg (fun h => hk' h.symm)]
    · next hk =>
      simp only [lookupOffset, ih]
      by_cases hk' : k0 = k'
      · subst hk'
        rw [if_pos rfl, if_neg hk, if_pos rfl]
      · rw [if_neg hk', if_neg hk']

/-! ### Claim theorems: code generation context -/

/-- Address-faithful model of `m_functionGenerationQueue`
(`std::set<FunctionDefinition const*>` under the default pointer comparator
`std::less<FunctionDefinition const*>`): each element is a pointer — an
allocation address paired with the node it points to — and the set iterates
in ascending address order.  Addresses are assigned by the allocator and
bear no relation to node identities. -/
abbrev FunctionPointerQueue := List (Nat × FunctionDefinition)

/-- `std::set` insertion into the address-ordered pointer set; inserting an
already-present address is a no-op. -/
def insertFunPtr (p : Nat × FunctionDefinition) :
    FunctionPointerQueue → FunctionPointerQueue
  | [] => [p]
  | q :: qs =>
    if p.1 < q.1 then p :: q :: qs
    else if p.1 = q.1 then q :: qs
    else q :: insertFunPtr p qs

/-- `IRGenerationContext::dequeueFunctionForCodeGeneration` over the
address-faithful queue: `solAssert` failure on the empty queue, otherwise
`*begin()` — the queued pointer with the lowest address — is dereferenced,
erased and returned. -/
def dequeueFunctionForCodeGenerationPtr (q : FunctionPointerQueue) :
    Option (FunctionDefinition × FunctionPointerQueue) :=
  match q with
  | [] => none
  | p :: rest => some (p.2, rest)

def sampleF1 : FunctionDefinition := ⟨3, "alpha", ⟨1, 1⟩, false⟩
def sampleF2 : FunctionDefinition := ⟨7, "beta", ⟨1, 1⟩, false⟩
def sampleCtxQueue : IRGenerationContext :=
  ⟨[], [sampleF1, sampleF2], [], some 0, [], [], []⟩

/-- Counterexample to claim C2 as stated: with two queued pointers whose
address order opposes their identity order — address 100 holding the
function with identity 7 and address 200 the one with identity 3 —
`dequeueFunctionForCodeGeneration` returns `*begin()`, the identity-7
function, although a function with the strictly lower identity 3 is queued.
The returned element is the lowest-address one, not the lowest-identity
one. -/
theorem claim_C2_counterexample :
    ([(100, sampleF2), (200, sampleF1)] : FunctionPointerQueue).Pairwise
        (fun a b => a.1 < b.1)
    ∧ dequeueFunctionForCodeGenerationPtr [(100, sampleF2), (200, sampleF1)]
        = some (sampleF2, [(200, sampleF1)])
    ∧ sampleF1 ∈ ([(100, sampleF2), (200, sampleF1)] : FunctionPointerQueue).map Prod.snd
    ∧ sampleF1.id < sampleF2.id := by
  refine ⟨by decide, rfl, by decide, by decide⟩

/-- Claim C2 (amended): `dequeueFunctionForCodeGeneration` fails
(precondition violation) on an empty queue; otherwise it removes and
returns one element determined by the set's iteration order — `*begin()`,
the queued pointer with the lowest address.  Pointer addresses are
implementation-defined and unrelated to function identities, so no
ascending-identity dequeue order is guaranteed; the source's own comment
(IRGenerationContext.h:250-252) declares the queue order irrelevant and
delegates output determinism to `MultiUseYulFunctionCollector`. -/
theorem claim_C2_dequeue_lowest_address (q : FunctionPointerQueue) :
    (q = [] → dequeueFunctionForCodeGenerationPtr q = none)
    ∧ (q.Pairwise (fun a b => a.1 < b.1) →
        ∀ f q', dequeueFunctionForCodeGenerationPtr q = some (f, q') →
          ∃ addr, (addr, f) ∈ q ∧ (∀ p ∈ q, addr ≤ p.1)
            ∧ q' = q.tail ∧ (addr, f) ∉ q') := by
  constructor
  · intro h
    rw [h]
    rfl
  · intro hsorted f q' hdeq
    rcases q with _ | ⟨p0, rest⟩
    · exact Option.noConfusion hdeq
    · rw [List.pairwise_cons] at hsorted
      simp only [dequeueFunctionForCodeGenerationPtr, Option.some.injEq,
        Prod.mk.injEq] at hdeq
      obtain ⟨hf, hq'⟩ := hdeq
      subst hf
      subst hq'
      refine ⟨p0.1, ?_, ?_, rfl, ?_⟩
      · show (p0.1, p0.2) ∈ p0 :: rest
        exact List.mem_cons_self _ _
      · intro p hp
        rcases List.mem_cons.mp hp with h | h
        · rw [h]
        · exact Nat.le_of_lt (hsorted.1 p h)
      · show (p0.1, p0.2) ∉ rest
        intro hmem
        exact absurd (hsorted.1 _ hmem) (by simp)

/-- Witness for amended claim C2 at a concrete two-pointer queue: the
lowest-address pointer is returned and erased. -/
theorem claim_C2_witness :
    ([(100, sampleF2), (200, sampleF1)] : FunctionPointerQueue).Pairwise
        (fun a b => a.1 < b.1)
    ∧ dequeueFunctionForCodeGenerationPtr [(100, sampleF2), (200, sampleF1)]
        = some (sampleF2, [(200, sampleF1)])
    ∧ (100, sampleF2) ∉ ([(200, sampleF1)] : FunctionPointerQueue) := by
  refine ⟨by decide, rfl, ?_⟩
  obtain ⟨addr, hmem, hmin, htail, hrem⟩ :=
    (claim_C2_dequeue_lowest_address [(100, sampleF2), (200, sampleF1)]).2
      (by decide) sampleF2 [(200, sampleF1)] rfl
  rcases List.mem_cons.mp hmem with h | h
  · have ha : addr = 100 := congrArg Prod.fst h
    subst ha
    exact hrem
  · have : sampleF2 = sampleF1 := congrArg Prod.snd (List.mem_singleton.mp h)
    exact absurd this (by decide)

/-- Claim C3: generated function names are injective in the function
identity — two functions with distinct identities always enqueue under
distinct names — and enqueueing the same function twice yields the same
name both times and leaves it in the (sorted, duplicate-free) generation
queue at most once. -/
theorem claim_C3_naming_injectivity (ctx : IRGenerationContext)
    (f g : FunctionDefinition) :
    (f.id ≠ g.id →
      (enqueueFunctionForCodeGeneration ctx f).1 ≠ (enqueueFunctionForCodeGeneration ctx g).1)
    ∧ (enqueueFunctionForCodeGeneration
          ((enqueueFunctionForCodeGeneration ctx f).2) f).1
        = (enqueueFunctionForCodeGeneration ctx f).1
    ∧ (ctx.functionGenerationQueue.Pairwise (fun a b => a.id < b.id) →
        ((enqueueFunctionForCodeGeneration
            ((enqueueFunctionForCodeGeneration ctx f).2) f).2.functionGenerationQueue.count f
          ≤ 1)) := by
  refine ⟨?_, rfl, ?_⟩
  · intro hne heq
    exact hne (functionName_id_inj heq)
  · intro hsorted
    simp only [enqueueFunctionForCodeGeneration, enqueueCore]
    split
    · exact count_le_one_of_pairwise hsorted
    · exact count_le_one_of_pairwise (insertFun_pairwise (insertFun_pairwise hsorted))

/-- Witness for claim C3 at two concrete functions with distinct ids. -/
theorem claim_C3_witness :
    (sampleF1.id ≠ sampleF2.id)
    ∧ (enqueueFunctionForCodeGeneration sampleCtxQueue sampleF1).1
        ≠ (enqueueFunctionForCodeGeneration sampleCtxQueue sampleF2).1 :=
  ⟨by decide,
   (claim_C3_naming_injectivity sampleCtxQueue sampleF1 sampleF2).1 (by decide)⟩

theorem tryEmplaceArity_idem (m : InternalDispatchMap) (a : Arity) :
    tryEmplaceArity (tryEmplaceArity m a) a = tryEmplaceArity m a := by
  rcases h : lookupArity m a with _ | v
  · simp only [tryEmplaceArity, h]
    rw [lookupArity_insertArity]
    simp
  · simp [tryEmplaceArity, h]

/-- Claim C4: `registerInternalDispatch` returns the dispatcher name
`dispatch_internal_in_<in>_out_<out>`, guarantees a dispatch-map entry for
the arity (an empty function set when the arity was absent), leaves an
already-present entry — indeed the whole context — unchanged, and is
idempotent. -/
theorem claim_C4_register_dispatch_idempotent (ctx : IRGenerationContext) (a : Arity) :
    (registerInternalDispatch ctx a).1
        = "dispatch_internal" ++ "_in_" ++ natToString a.ins ++ "_out_" ++ natToString a.outs
    ∧ (lookupArity ((registerInternalDispatch ctx a).2).internalDispatch a).isSome
    ∧ (lookupArity ctx.internalDispatch a = none →
        lookupArity ((registerInternalDispatch ctx a).2).internalDispatch a = some [])
    ∧ ((lookupArity ctx.internalDispatch a).isSome →
        (registerInternalDispatch ctx a).2 = ctx)
    ∧ registerInternalDispatch ((registerInternalDispatch ctx a).2) a
        = registerInternalDispatch ctx a := by
  refine ⟨rfl, ?_, ?_, ?_, ?_⟩
  · simp only [registerInternalDispatch, tryEmplaceArity]
    rcases h : lookupArity ctx.internalDispatch a with _ | v
    · simp [lookupArity_insertArity]
    · simp [h]
  · intro h
    simp only [registerInternalDispatch, tryEmplaceArity, h]
    simp [lookupArity_insertArity]
  · intro h
    rcases hl : lookupArity ctx.internalDispatch a with _ | v
    · rw [hl] at h
      simp at h
    · simp [registerInternalDispatch, tryEmplaceArity, hl]
  · simp [registerInternalDispatch, tryEmplaceArity_idem]

/-- Witness for claim C4 at a concrete arity on the empty context. -/
theorem claim_C4_witness :
    lookupArity (([] : InternalDispatchMap)) ⟨2, 1⟩ = none
    ∧ lookupArity ((registerInternalDispatch ⟨[], [], [], some 0, [], [], []⟩
        ⟨2, 1⟩).2).internalDispatch ⟨2, 1⟩ = some [] :=
  ⟨rfl,
   (claim_C4_register_dispatch_idempotent ⟨[], [], [], some 0, [], [], []⟩ ⟨2, 1⟩).2.2.1 rfl⟩

/-- Claim C10: `setInternalDispatchCandidates` succeeds exactly on a
completely clean dispatch state (dispatch map, candidates map and
pending-reference table all empty), in which case the supplied map becomes
the candidates map and nothing else changes. -/
theorem claim_C10_candidates_precondition (ctx : IRGenerationContext)
    (m : InternalDispatchMap) :
    ((setInternalDispatchCandidates ctx m).isSome ↔
      (ctx.internalDispatch = [] ∧ ctx.internalDispatchCandidates = []
        ∧ ctx.dispatchableInternalFunctionReferences = []))
    ∧ (∀ ctx', setInternalDispatchCandidates ctx m = some ctx' →
        ctx' = { ctx with internalDispatchCandidates := m }) := by
  constructor
  · simp only [setInternalDispatchCandidates, internalDispatchClean]
    split
    · next h =>
      simp only [Bool.and_eq_true, List.isEmpty_iff] at h
      simp [h.1.1, h.1.2, h.2]
    · next h =>
      simp only [Bool.and_eq_true, List.isEmpty_iff] at h
      simp only [Option.isSome_none, Bool.false_eq_true, false_iff]
      intro hc
      exact h ⟨⟨hc.1, hc.2.1⟩, hc.2.2⟩
  · intro ctx' h
    simp only [setInternalDispatchCandidates] at h
    split at h
    · exact (Option.some.injEq _ _).mp h.symm |>.symm ▸ rfl
    · exact absurd h (by simp)

/-- Witness for claim C10 on a concrete clean context. -/
theorem claim_C10_witness :
    (setInternalDispatchCandidates ⟨[], [], [], some 0, [], [], []⟩
        [(⟨1, 1⟩, [sampleF1])]).isSome := by
  exact ((claim_C10_candidates_precondition ⟨[], [], [], some 0, [], [], []⟩
    [(⟨1, 1⟩, [sampleF1])]).1).mpr ⟨rfl, rfl, rfl⟩

/-- Claim C6: with reservation open at zero bytes, registering two 32-byte
immutables assigns offsets `base` and `base + 32` (the cursor advancing by
32 each time); finalizing via `reservedMemory` then returns 64 and closes
reservation, after which both a second `reservedMemory` call and any
further `registerImmutableVariable` call fail. -/
theorem claim_C6_immutable_offsets (ctx : IRGenerationContext)
    (v1 v2 : VariableDeclaration)
    (h0 : ctx.reservedMemory = some 0)
    (h1 : v1.immutable = true) (h2 : v1.isValueType = true) (h3 : v1.memoryHeadSize = 32)
    (h4 : v2.immutable = true) (h5 : v2.isValueType = true) (h6 : v2.memoryHeadSize = 32)
    (hne : v1.id ≠ v2.id) :
    ∃ ctx1 ctx2 ctx3,
      registerImmutableVariable ctx v1 = some ctx1
      ∧ registerImmutableVariable ctx1 v2 = some ctx2
      ∧ immutableMemoryOffset ctx2 v1 = some generalPurposeMemoryStart
      ∧ immutableMemoryOffset ctx2 v2 = some (generalPurposeMemoryStart + 32)
      ∧ reservedMemory ctx2 = some (64, ctx3)
      ∧ reservedMemory ctx3 = none
      ∧ ∀ v3, registerImmutableVariable ctx3 v3 = none := by
  obtain ⟨fns, q, imm, rm, di, dc, dr⟩ := ctx
  obtain ⟨i1, n1, im1, vt1, ms1⟩ := v1
  obtain ⟨i2, n2, im2, vt2, ms2⟩ := v2
  simp only at h0 h1 h2 h3 h4 h5 h6 hne
  subst h0 h1 h2 h3 h4 h5 h6
  refine ⟨_, _, _, rfl, rfl, ?_, ?_, rfl, rfl, ?_⟩
  · simp [immutableMemoryOffset, lookupOffset_setOffset, hne]
  · simp [immutableMemoryOffset, lookupOffset_setOffset]
  · intro v3
    simp only [registerImmutableVariable]
    split
    · rfl
    · split
      · rfl
      · rfl

def sampleV1 : VariableDeclaration := ⟨11, "x", true, true, 32⟩
def sampleV2 : VariableDeclaration := ⟨12, "y", true, true, 32⟩

/-- Witness for claim C6 at two concrete immutable declarations. -/
theorem claim_C6_witness :
    ((registerImmutableVariable ⟨[], [], [], some 0, [], [], []⟩ sampleV1).bind
        (fun c1 => registerImmutableVariable c1 sampleV2)).bind
      (fun c2 => immutableMemoryOffset c2 sampleV1) = some generalPurposeMemoryStart := by
  obtain ⟨c1, c2, c3, e1, e2, e3, e4, e5, e6, e7⟩ :=
    claim_C6_immutable_offsets ⟨[], [], [], some 0, [], [], []⟩ sampleV1 sampleV2
      rfl rfl rfl rfl rfl rfl rfl (by decide)
  rw [e1, Option.some_bind, e2, Option.some_bind]
  exact e3

/-! ### Claim C1: the promotion phase -/

theorem promoteLoop_spec (fns : FunctionCollector) :
    ∀ (entries cands : InternalDispatchMap) (q : List FunctionDefinition)
      (r c' : InternalDispatchMap) (q' : List FunctionDefinition),
      (arityKeys cands).Nodup →
      promoteLoop fns entries cands q = some (r, c', q') →
      arityKeys r = arityKeys entries
      ∧ (∀ b, (lookupArity c' b).isSome → (lookupArity cands b).isSome)
      ∧ (∀ a, a ∈ arityKeys entries → lookupArity c' a = none) := by
  intro entries
  induction entries with
  | nil =>
    intro cands q r c' q' hnodup hrun
    simp only [promoteLoop, Option.some.injEq, Prod.mk.injEq] at hrun
    obtain ⟨h1, h2, h3⟩ := hrun
    subst h1
    subst h2
    simp [arityKeys]
  | cons p rest ih =>
    obtain ⟨a, fs⟩ := p
    intro cands q r c' q' hnodup hrun
    simp only [promoteLoop] at hrun
    split at hrun
    · next hl =>
      rcases hrec : promoteLoop fns rest cands q with _ | ⟨⟨r0, c0, q0⟩⟩
      · rw [hrec] at hrun
        exact Option.noConfusion hrun
      · rw [hrec] at hrun
        simp only [Option.map_some', Option.some.injEq, Prod.mk.injEq] at hrun
        obtain ⟨h1, h2, h3⟩ := hrun
        subst h1
        subst h2
        obtain ⟨k1, k2, k3⟩ := ih cands q r0 c0 q0 hnodup hrec
        refine ⟨?_, k2, ?_⟩
        · show a :: arityKeys r0 = a :: arityKeys rest
          rw [k1]
        intro b hb
        rcases List.mem_cons.mp (show b ∈ a :: arityKeys rest from hb) with hba | hb'
        · subst hba
          rcases hc0 : lookupArity c0 b with _ | v
          · rfl
          · have := k2 b (by simp [hc0])
            rw [hl] at this
            simp at this
        · exact k3 b hb'
    · next cfs hl =>
      split at hrun
      · next hfs =>
        rcases hrec : promoteLoop fns rest (eraseArity cands a) (enqueueAll fns q cfs)
            with _ | ⟨⟨r0, c0, q0⟩⟩
        · rw [hrec] at hrun
          exact Option.noConfusion hrun
        · rw [hrec] at hrun
          simp only [Option.map_some', Option.some.injEq, Prod.mk.injEq] at hrun
          obtain ⟨h1, h2, h3⟩ := hrun
          subst h1
          subst h2
          have hnodup' : (arityKeys (eraseArity cands a)).Nodup :=
            List.Nodup.sublist (arityKeys_eraseArity_sublist cands a) hnodup
          obtain ⟨k1, k2, k3⟩ := ih (eraseArity cands a) (enqueueAll fns q cfs) r0 c0 q0 hnodup' hrec
          refine ⟨?_, ?_, ?_⟩
          · show a :: arityKeys r0 = a :: arityKeys rest
            rw [k1]
          · intro b hb
            exact lookupArity_eraseArity_isSome (k2 b hb)
          · intro b hb
            rcases List.mem_cons.mp (show b ∈ a :: arityKeys rest from hb) with hba | hb'
            · subst hba
              rcases hc0 : lookupArity c0 b with _ | v
              · rfl
              · have := k2 b (by simp [hc0])
                rw [lookupArity_eraseArity_self hnodup] at this
                simp at this
            · exact k3 b hb'
      · exact absurd hrun (by simp)

theorem referenceLoop_spec (fns : FunctionCollector) :
    ∀ (refs : List (Nat × FunctionDefinition)) (disp cands : InternalDispatchMap)
      (q : List FunctionDefinition) (d' c' : InternalDispatchMap)
      (q' : List FunctionDefinition),
      (∀ b, ¬((lookupArity disp b).isSome ∧ (lookupArity cands b).isSome)) →
      referenceLoop fns refs disp cands q = some (d', c', q') →
      ∀ b, ¬((lookupArity d' b).isSome ∧ (lookupArity c' b).isSome) := by
  intro refs
  induction refs with
  | nil =>
    intro disp cands q d' c' q' hinv hrun
    simp only [referenceLoop, Option.some.injEq, Prod.mk.injEq] at hrun
    obtain ⟨h1, h2, h3⟩ := hrun
    subst h1
    subst h2
    exact hinv
  | cons p rest ih =>
    obtain ⟨eid, f⟩ := p
    intro disp cands q d' c' q' hinv hrun
    simp only [referenceLoop] at hrun
    split at hrun
    · exact absurd hrun (by simp)
    · next dfs hd hc =>
      refine ih _ _ _ _ _ _ ?_ hrun
      intro b hb
      obtain ⟨hb1, hb2⟩ := hb
      rw [lookupArity_updateArity_isSome] at hb1
      exact hinv b ⟨hb1, hb2⟩
    · next cfs hd hc =>
      refine ih _ _ _ _ _ _ ?_ hrun
      intro b hb
      obtain ⟨hb1, hb2⟩ := hb
      rw [lookupArity_updateArity_isSome] at hb2
      exact hinv b ⟨hb1, hb2⟩
    · next hd hc =>
      refine ih _ _ _ _ _ _ ?_ hrun
      intro b hb
      obtain ⟨hb1, hb2⟩ := hb
      rw [lookupArity_insertArity] at hb2
      by_cases hba : b = functionArity f
      · rw [hba] at hb1
        rw [hd] at hb1
        simp at hb1
      · rw [if_neg hba] at hb2
        exact hinv b ⟨hb1, hb2⟩

/-- Claim C1: after a completed run of `moveCollectedReferencesToDispatch`
(on a well-formed candidates map, i.e. duplicate-free keys as guaranteed by
`std::map`), every arity keys at most one of the dispatch map and the
candidates map, and the pending-reference table is empty. -/
theorem claim_C1_dispatch_partition (ctx ctx' : IRGenerationContext)
    (hnodup : (arityKeys ctx.internalDispatchCandidates).Nodup)
    (hrun : moveCollectedReferencesToDispatch ctx = some ctx') :
    (∀ a, ¬((lookupArity ctx'.internalDispatch a).isSome
        ∧ (lookupArity ctx'.internalDispatchCandidates a).isSome))
    ∧ ctx'.dispatchableInternalFunctionReferences = [] := by
  simp only [moveCollectedReferencesToDispatch] at hrun
  split at hrun
  · exact absurd hrun (by simp)
  · next d1 c1 q1 hp =>
    split at hrun
    · exact absurd hrun (by simp)
    · next d2 c2 q2 hr =>
      simp only [Option.some.injEq] at hrun
      subst hrun
      obtain ⟨k1, k2, k3⟩ := promoteLoop_spec ctx.functions ctx.internalDispatch
        ctx.internalDispatchCandidates ctx.functionGenerationQueue d1 c1 q1 hnodup hp
      have hdisj1 : ∀ b, ¬((lookupArity d1 b).isSome ∧ (lookupArity c1 b).isSome) := by
        intro b hb
        obtain ⟨hb1, hb2⟩ := hb
        have hmem : b ∈ arityKeys d1 := lookupArity_isSome_iff_mem.mp hb1
        rw [k1] at hmem
        rw [k3 b hmem] at hb2
        simp at hb2
      have hdisj2 := referenceLoop_spec ctx.functions
        ctx.dispatchableInternalFunctionReferences d1 c1 q1 d2 c2 q2 hdisj1 hr
      exact ⟨hdisj2, rfl⟩

def sampleG : FunctionDefinition := ⟨5, "gamma", ⟨1, 1⟩, false⟩

def sampleCtxC1 : IRGenerationContext :=
  ⟨[], [], [], some 0, [(⟨1, 1⟩, [])],
   [(⟨1, 1⟩, [sampleF1]), (⟨2, 0⟩, [sampleF2])], [(99, sampleG)]⟩

def sampleCtxC1Result : IRGenerationContext :=
  ⟨[], [sampleF1, sampleG], [], some 0,
   [(⟨1, 1⟩, [sampleF1, sampleG])], [(⟨2, 0⟩, [sampleF2])], []⟩

/-- Witness for claim C1 on a concrete promotion run: one registered arity
absorbing its candidate bucket, one untouched candidate arity, one pending
reference landing in the dispatch entry. -/
theorem claim_C1_witness :
    (arityKeys sampleCtxC1.internalDispatchCandidates).Nodup
    ∧ ¬((lookupArity sampleCtxC1Result.internalDispatch ⟨2, 0⟩).isSome
        ∧ (lookupArity sampleCtxC1Result.internalDispatchCandidates ⟨2, 0⟩).isSome)
    ∧ sampleCtxC1Result.dispatchableInternalFunctionReferences = [] := by
  have h := claim_C1_dispatch_partition sampleCtxC1 sampleCtxC1Result (by decide) rfl
  exact ⟨by decide, h.1 ⟨2, 0⟩, h.2⟩

/-! ### Claim C5: dispatcher synthesis -/

theorem internalDispatchCases_isSome (a : Arity) (fs : List FunctionDefinition) :
    (internalDispatchCases a fs).isSome ↔
      ∀ f ∈ fs, functionArity f = a ∧ f.isConstructor = false ∧ f.id ≠ 0 := by
  induction fs with
  | nil => simp [internalDispatchCases]
  | cons f fs ih =>
    by_cases h1 : functionArity f = a
    · by_cases h2 : f.isConstructor
      · simp [internalDispatchCases, h1, h2]
      · by_cases h3 : f.id = 0
        · simp [internalDispatchCases, h1, h2, h3]
        · simp only [internalDispatchCases, if_neg (fun hc => absurd h1 hc), if_neg h2,
            if_neg h3, List.forall_mem_cons]
          rw [Option.isSome_map']
          rw [ih]
          simp [h1, h2, h3]
    · simp [internalDispatchCases, h1]

theorem internalDispatchCases_eq (a : Arity) :
    ∀ (fs : List FunctionDefinition) (cs : List DispatchCase),
      internalDispatchCases a fs = some cs →
      cs = fs.map (fun f => ⟨f.id, functionName f⟩) := by
  intro fs
  induction fs with
  | nil =>
    intro cs h
    simp only [internalDispatchCases, Option.some.injEq] at h
    simp [← h]
  | cons f fs ih =>
    intro cs h
    simp only [internalDispatchCases] at h
    split at h
    · exact Option.noConfusion h
    · split at h
      · exact Option.noConfusion h
      · split at h
        · exact Option.noConfusion h
        · rcases hrec : internalDispatchCases a fs with _ | cs0
          · rw [hrec] at h
            exact Option.noConfusion h
          · rw [hrec] at h
            simp only [Option.map_some', Option.some.injEq] at h
            rw [← h, List.map_cons, ih cs0 hrec]

/-- Claim C5: `internalDispatch` succeeds exactly when every function of the
set has the given arity, is not a constructor and has non-zero identity
(`solAssert` failures otherwise); on success it emits one case per function,
each forwarding the function's identity to its statically generated name,
over the template whose body always ends in the unconditional
`default \x7b invalid() \x7d` failure case — so for the empty set the body
is exactly that default case. -/
theorem claim_C5_dispatcher_synthesis (a : Arity) (fs : List FunctionDefinition) :
    ((internalDispatchCases a fs).isSome ↔
      ∀ f ∈ fs, functionArity f = a ∧ f.isConstructor = false ∧ f.id ≠ 0)
    ∧ (∀ cs, internalDispatchCases a fs = some cs →
        cs = fs.map (fun f => ⟨f.id, functionName f⟩))
    ∧ renderDispatchBody a [] = "default \x7b invalid() \x7d"
    ∧ (∀ ctx, (internalDispatch ctx a fs).isSome ↔ (internalDispatchCases a fs).isSome) := by
  refine ⟨internalDispatchCases_isSome a fs, internalDispatchCases_eq a fs, ?_, ?_⟩
  · simp [renderDispatchBody, String.join]
  · intro ctx
    simp only [internalDispatch]
    rw [Option.isSome_map']

/-- Witness for claim C5 at a concrete singleton function set. -/
theorem claim_C5_witness :
    (∀ f ∈ [sampleF1], functionArity f = ⟨1, 1⟩ ∧ f.isConstructor = false ∧ f.id ≠ 0)
    ∧ (internalDispatchCases ⟨1, 1⟩ [sampleF1]).isSome :=
  ⟨by decide,
   (claim_C5_dispatcher_synthesis ⟨1, 1⟩ [sampleF1]).1.mpr (by decide)⟩

/-! ### Claims C7/C8/C9: the reasoning-based simplifier -/

/-- Ground evaluation of a formula term: its integer value when it contains
no logical variables. -/
def SMTExpr.evalGround : SMTExpr → Option Nat
  | .var _ => none
  | .const n => some n
  | .lt a b =>
    match a.evalGround, b.evalGround with
    | some x, some y => some (if x < y then 1 else 0)
    | _, _ => none
  | .gt a b =>
    match a.evalGround, b.evalGround with
    | some x, some y => some (if x > y then 1 else 0)
    | _, _ => none
  | .add a b =>
    match a.evalGround, b.evalGround with
    | some x, some y => some (x + y)
    | _, _ => none
  | .ite c t e =>
    match c.evalGround with
    | some cv => if cv ≠ 0 then t.evalGround else e.evalGround
    | none => none

/-- Ground truth value of an assertion, when variable-free. -/
def SMTFormula.evalGround : SMTFormula → Option Bool
  | .eq a b =>
    match a.evalGround, b.evalGround with
    | some x, some y => some (decide (x = y))
    | _, _ => none
  | .neq a b =>
    match a.evalGround, b.evalGround with
    | some x, some y => some (decide (x ≠ y))
    | _, _ => none

/-- A sound prover instance for exercising the walk: it answers
`UNSATISFIABLE` exactly when some asserted formula is variable-free and
false (so the asserted conjunction truly has no model), and `UNKNOWN`
otherwise. -/
def groundOracle (fs : List SMTFormula) : CheckResult :=
  if fs.any (fun f => f.evalGround == some false) then .UNSATISFIABLE else .UNKNOWN

/-- A prover instance that always gives up. -/
def unknownOracle : List SMTFormula → CheckResult :=
  fun _ => .UNKNOWN

def sampleRBS : RBSState := ⟨[], [], 0, ⟨[[]], unknownOracle⟩⟩

/-- Claim C7 (amended): the visit of an `If` rewrites the condition to the
literal `0` when the check under `condition != 0` reports `UNSATISFIABLE`;
otherwise to the literal `1` when the check under `condition == 0` reports
`UNSATISFIABLE`; otherwise leaves it unchanged.  A result of `UNKNOWN` is
treated exactly like `SATISFIABLE` (only `= UNSATISFIABLE` is ever tested),
and when both checks report `UNSATISFIABLE` (an inconsistent ambient
assertion stack) the later `0`-rewrite overwrites the earlier `1`-rewrite. -/
theorem claim_C7_condition_rewrite (st : RBSState) (cond : YulExpression)
    (body : List YulStatement) (condEnc : SMTExpr) (st1 : RBSState)
    (henc : encodeExpression st cond = some (condEnc, st1))
    (body' : List YulStatement) (st2 : RBSState)
    (hbody : visitStatements
        { st1 with solver := (st1.solver.push).addAssertion (.neq condEnc (.const 0)) } body
        = some (body', st2)) :
    visitStatement st (.ifStmt cond body) =
      some (.ifStmt
        (if ((st1.solver.push).addAssertion (.neq condEnc (.const 0))).check
              = CheckResult.UNSATISFIABLE
          then YulExpression.lit 0
          else if ((st1.solver.push).addAssertion (.eq condEnc (.const 0))).check
              = CheckResult.UNSATISFIABLE
            then YulExpression.lit 1
            else cond)
        body',
        { st2 with solver := st2.solver.pop }) := by
  rw [visitStatement]
  rw [henc]
  simp only [pop_addAssertion_push]
  rw [hbody]

/-- Witness for amended claim C7: a concrete `If` on the literal `3` under
a prover that always answers `UNKNOWN` — no rewrite happens. -/
theorem claim_C7_witness :
    visitStatement sampleRBS (.ifStmt (.lit 3) []) =
      some (.ifStmt
        (if ((sampleRBS.solver.push).addAssertion (.neq (.const 3) (.const 0))).check
              = CheckResult.UNSATISFIABLE
          then YulExpression.lit 0
          else if ((sampleRBS.solver.push).addAssertion (.eq (.const 3) (.const 0))).check
              = CheckResult.UNSATISFIABLE
            then YulExpression.lit 1
            else .lit 3)
        [],
        { (({ sampleRBS with
              solver := (sampleRBS.solver.push).addAssertion
                (.neq (.const 3) (.const 0)) }) : RBSState) with
            solver := ((sampleRBS.solver.push).addAssertion
              (.neq (.const 3) (.const 0))).pop }) := by
  have henc : encodeExpression sampleRBS (.lit 3) = some (.const 3, sampleRBS) := by
    simp [encodeExpression]
  have hbody : visitStatements
      { sampleRBS with
          solver := (sampleRBS.solver.push).addAssertion (.neq (.const 3) (.const 0)) } [] =
      some ([], { sampleRBS with
          solver := (sampleRBS.solver.push).addAssertion (.neq (.const 3) (.const 0)) }) := by
    simp [visitStatements]
  exact claim_C7_condition_rewrite sampleRBS (.lit 3) [] (.const 3) sampleRBS henc [] _ hbody

/-- Counterexample to claim C7 as stated: in the program
`if 0 \x7b if 5 \x7b \x7d \x7d`, visited with a sound prover, the inner
condition's first hypothetical check (`condition == 0`) reports
`UNSATISFIABLE` (the ambient taken-branch assumption `0 != 0` is already
contradictory), yet the inner condition is rewritten to the literal `0`,
not the claimed literal `1` — the second rewrite overwrites the first. -/
theorem claim_C7_counterexample :
    (((({ frames := [[SMTFormula.neq (.const 0) (.const 0)], []],
          oracle := groundOracle } : Solver).push).addAssertion
        (.eq (.const 5) (.const 0))).check = CheckResult.UNSATISFIABLE)
    ∧ ((visitStatements ⟨[], [], 0, ⟨[[]], groundOracle⟩⟩
          [.ifStmt (.lit 0) [.ifStmt (.lit 5) []]]).map Prod.fst
        = some [.ifStmt (.lit 0) [.ifStmt (.lit 0) []]]) := by
  constructor
  · rfl
  · simp [visitStatements, visitStatement, encodeExpression, Solver.check, Solver.assertions,
      Solver.push, Solver.pop, Solver.addAssertion, groundOracle, SMTFormula.evalGround,
      SMTExpr.evalGround]

theorem encodeExpression_solver :
    ∀ (st : RBSState) (e : YulExpression), ∀ x st',
      encodeExpression st e = some (x, st') → st'.solver = st.solver := by
  refine @encodeExpression.induct
    (fun st e => ∀ x st', encodeExpression st e = some (x, st') → st'.solver = st.solver)
    (fun st instr args => ∀ x st', encodeBuiltin st instr args = some (x, st') →
      st'.solver = st.solver)
    (fun st es => ∀ xs st', encodeExpressionList st es = some (xs, st') →
      st'.solver = st.solver)
    ?_ ?_ ?_ ?_ ?_ ?_ ?_ ?_ ?_ ?_ ?_ ?_ ?_ ?_ ?_ ?_ ?_ ?_
  · intro st a args instr hbi ih x st' h
    rw [encodeExpression.eq_def] at h
    simp only [hbi] at h
    exact ih x st' h
  · intro st a args hbi x st' h
    rw [encodeExpression.eq_def] at h
    simp only [hbi, newVariable, Option.some.injEq, Prod.mk.injEq] at h
    rw [← h.2]
  · intro st a hcont val hlook x st' h
    simp only [encodeExpression, hcont, hlook, if_true, Option.some.injEq,
      Prod.mk.injEq] at h
    rw [← h.2]
  · intro st a hcont hlook x st' h
    simp only [encodeExpression, hcont, hlook, if_true, newVariable, Option.some.injEq,
      Prod.mk.injEq] at h
    rw [← h.2]
  · intro st a hcont x st' h
    simp only [Bool.not_eq_true] at hcont
    simp only [encodeExpression, hcont, newVariable, Option.some.injEq, Prod.mk.injEq,
      Bool.false_eq_true, if_false] at h
    rw [← h.2]
  · intro st a x st' h
    rw [encodeExpression] at h
    simp only [Option.some.injEq, Prod.mk.injEq] at h
    rw [← h.2]
  · intro st instr args hlist ih x st' h
    simp only [encodeBuiltin, hlist] at h
    exact Option.noConfusion h
  · intro st args xs st2 hlist x y hg1 hg0 ih xx st' h
    simp only [encodeBuiltin, hlist, hg0, hg1, Option.some.injEq, Prod.mk.injEq] at h
    rw [← h.2]
    exact ih xs st2 hlist
  · intro st args xs st2 hlist hfail ih xx st' h
    rcases hg0 : xs.get? 0 with _ | x0 <;> rcases hg1 : xs.get? 1 with _ | y0
    · simp only [encodeBuiltin, hlist, hg0, hg1] at h
      exact Option.noConfusion h
    · simp only [encodeBuiltin, hlist, hg0, hg1] at h
      exact Option.noConfusion h
    · simp only [encodeBuiltin, hlist, hg0, hg1] at h
      exact Option.noConfusion h
    · exact absurd hg1 (fun hc => hfail x0 y0 hg0 hc)
  · intro st args xs st2 hlist x y hg1 hg0 ih xx st' h
    simp only [encodeBuiltin, hlist, hg0, hg1, Option.some.injEq, Prod.mk.injEq] at h
    rw [← h.2]
    exact ih xs st2 hlist
  · intro st args xs st2 hlist hfail ih xx st' h
    rcases hg0 : xs.get? 0 with _ | x0 <;> rcases hg1 : xs.get? 1 with _ | y0
    · simp only [encodeBuiltin, hlist, hg0, hg1] at h
      exact Option.noConfusion h
    · simp only [encodeBuiltin, hlist, hg0, hg1] at h
      exact Option.noConfusion h
    · simp only [encodeBuiltin, hlist, hg0, hg1] at h
      exact Option.noConfusion h
    · exact absurd hg1 (fun hc => hfail x0 y0 hg0 hc)
  · intro st args xs st2 hlist x y hg1 hg0 ih xx st' h
    simp only [encodeBuiltin, hlist, hg0, hg1, Option.some.injEq, Prod.mk.injEq] at h
    rw [← h.2]
    exact ih xs st2 hlist
  · intro st args xs st2 hlist hfail ih xx st' h
    rcases hg0 : xs.get? 0 with _ | x0 <;> rcases hg1 : xs.get? 1 with _ | y0
    · simp only [encodeBuiltin, hlist, hg0, hg1] at h
      exact Option.noConfusion h
    · simp only [encodeBuiltin, hlist, hg0, hg1] at h
      exact Option.noConfusion h
    · simp only [encodeBuiltin, hlist, hg0, hg1] at h
      exact Option.noConfusion h
    · exact absurd hg1 (fun hc => hfail x0 y0 hg0 hc)
  · intro st instr args xs st2 hlist hn1 hn2 hn3 ih x st' h
    have hst2 := ih xs st2 hlist
    cases instr with
    | LT => exact absurd rfl hn1
    | GT => exact absurd rfl hn2
    | ADD => exact absurd rfl hn3
    | MUL =>
      simp only [encodeBuiltin, hlist, newVariable, Option.some.injEq, Prod.mk.injEq] at h
      rw [← h.2]
      exact hst2
    | SUB =>
      simp only [encodeBuiltin, hlist, newVariable, Option.some.injEq, Prod.mk.injEq] at h
      rw [← h.2]
      exact hst2
    | DIV =>
      simp only [encodeBuiltin, hlist, newVariable, Option.some.injEq, Prod.mk.injEq] at h
      rw [← h.2]
      exact hst2
    | ISZERO =>
      simp only [encodeBuiltin, hlist, newVariable, Option.some.injEq, Prod.mk.injEq] at h
      rw [← h.2]
      exact hst2
  · intro st xs st' h
    rw [encodeExpressionList] at h
    simp only [Option.some.injEq, Prod.mk.injEq] at h
    rw [← h.2]
  · intro st e es hnone ih xs st' h
    simp only [encodeExpressionList, hnone] at h
    exact Option.noConfusion h
  · intro st e es x st1 hsome hnone ih1 ih3 xs st' h
    simp only [encodeExpressionList, hsome, hnone] at h
    exact Option.noConfusion h
  · intro st e es x st1 hsome xs2 st2 hsome2 ih1 ih3 xs st' h
    simp only [encodeExpressionList, hsome, hsome2, Option.some.injEq, Prod.mk.injEq] at h
    rw [← h.2]
    rw [ih3 xs2 st2 hsome2, ih1 x st1 hsome]

theorem addAssertion_oracle (s : Solver) (f : SMTFormula) :
    (s.addAssertion f).oracle = s.oracle := by
  cases s with
  | mk fr o => cases fr <;> rfl

theorem addAssertion_frames_tail (s : Solver) (f : SMTFormula) :
    (s.addAssertion f).frames.tail = s.frames.tail := by
  cases s with
  | mk fr o => cases fr <;> rfl

theorem push_addAssertion_frames (s : Solver) (f : SMTFormula) :
    ((s.push).addAssertion f).frames = [f] :: s.frames := by
  cases s with
  | mk fr o => rfl

theorem visitStatements_solver :
    ∀ (st : RBSState) (l : List YulStatement), ∀ l' st',
      visitStatements st l = some (l', st') →
      st'.solver.oracle = st.solver.oracle
        ∧ st'.solver.frames.tail = st.solver.frames.tail := by
  refine visitStatements.induct
    (fun st s => ∀ s' st', visitStatement st s = some (s', st') →
      st'.solver.oracle = st.solver.oracle
        ∧ st'.solver.frames.tail = st.solver.frames.tail)
    (fun st l => ∀ l' st', visitStatements st l = some (l', st') →
      st'.solver.oracle = st.solver.oracle
        ∧ st'.solver.frames.tail = st.solver.frames.tail)
    ?_ ?_ ?_ ?_ ?_ ?_ ?_ ?_ ?_ ?_ ?_ ?_ ?_
  case refine_1 =>
    intro st v e hcont stL henc s' st' h
    rw [visitStatement.eq_def] at h
    simp only [hcont, if_true] at h
    rcases he : encodeExpression
        { st with varMap := insertVar st.varMap v (SMTExpr.var ("yul_" ++ v)) } e
        with _ | ⟨xe, stE⟩
    · simp only [he] at h
      exact Option.noConfusion h
    · simp only [he] at h
      rcases hlk : lookupVar stE.varMap v with _ | bv
      · simp only [hlk] at h
        exact Option.noConfusion h
      · simp only [hlk, Option.some.injEq, Prod.mk.injEq] at h
        have hsol : stE.solver = st.solver :=
          encodeExpression_solver
            { st with varMap := insertVar st.varMap v (SMTExpr.var ("yul_" ++ v)) } e xe stE he
        rw [← h.2]
        exact ⟨by rw [addAssertion_oracle, hsol], by rw [addAssertion_frames_tail, hsol]⟩
  case refine_2 =>
    intro st v e hcont stL xe stE henc hlk s' st' h
    rw [visitStatement.eq_def] at h
    simp only [hcont, if_true] at h
    rcases he : encodeExpression
        { st with varMap := insertVar st.varMap v (SMTExpr.var ("yul_" ++ v)) } e
        with _ | ⟨xe2, stE2⟩
    · simp only [he] at h
      exact Option.noConfusion h
    · simp only [he] at h
      rcases hlk2 : lookupVar stE2.varMap v with _ | bv
      · simp only [hlk2] at h
        exact Option.noConfusion h
      · simp only [hlk2, Option.some.injEq, Prod.mk.injEq] at h
        have hsol : stE2.solver = st.solver :=
          encodeExpression_solver
            { st with varMap := insertVar st.varMap v (SMTExpr.var ("yul_" ++ v)) } e xe2 stE2 he
        rw [← h.2]
        exact ⟨by rw [addAssertion_oracle, hsol], by rw [addAssertion_frames_tail, hsol]⟩
  case refine_3 =>
    intro st v e hcont stL xe stE henc bv hlk s' st' h
    rw [visitStatement.eq_def] at h
    simp only [hcont, if_true] at h
    rcases he : encodeExpression
        { st with varMap := insertVar st.varMap v (SMTExpr.var ("yul_" ++ v)) } e
        with _ | ⟨xe2, stE2⟩
    · simp only [he] at h
      exact Option.noConfusion h
    · simp only [he] at h
      rcases hlk2 : lookupVar stE2.varMap v with _ | bv2
      · simp only [hlk2] at h
        exact Option.noConfusion h
      · simp only [hlk2, Option.some.injEq, Prod.mk.injEq] at h
        have hsol : stE2.solver = st.solver :=
          encodeExpression_solver
            { st with varMap := insertVar st.varMap v (SMTExpr.var ("yul_" ++ v)) } e xe2 stE2 he
        rw [← h.2]
        exact ⟨by rw [addAssertion_oracle, hsol], by rw [addAssertion_frames_tail, hsol]⟩
  case refine_4 =>
    intro st v e hcont s' st' h
    simp only [Bool.not_eq_true] at hcont
    rw [visitStatement.eq_def] at h
    simp only [hcont, Bool.false_eq_true, if_false, Option.some.injEq, Prod.mk.injEq] at h
    rw [← h.2]
    exact ⟨rfl, rfl⟩
  case refine_5 =>
    intro st vars value hother s' st' h
    rcases hv : vars with _ | ⟨v0, vrest⟩
    · subst hv
      rw [visitStatement.eq_def] at h
      simp only [Option.some.injEq, Prod.mk.injEq] at h
      rw [← h.2]
      exact ⟨rfl, rfl⟩
    · rcases hrest : vrest with _ | _
      · rcases hval : value with _ | e0
        · subst hv
          subst hrest
          subst hval
          rw [visitStatement.eq_def] at h
          simp only [Option.some.injEq, Prod.mk.injEq] at h
          rw [← h.2]
          exact ⟨rfl, rfl⟩
        · exact (hother v0 e0 (by rw [hv, hrest]) hval).elim
      · subst hv
        subst hrest
        rw [visitStatement.eq_def] at h
        simp only [Option.some.injEq, Prod.mk.injEq] at h
        rw [← h.2]
        exact ⟨rfl, rfl⟩
  case refine_6 =>
    intro st cond body henc s' st' h
    rw [visitStatement.eq_def] at h
    simp only [henc] at h
    exact Option.noConfusion h
  case refine_7 =>
    intro st cond body x st1 henc sA sB sC sD sE hbody ih s' st' h
    rw [visitStatement.eq_def] at h
    simp only [henc, pop_addAssertion_push] at h
    rcases hv : visitStatements
        { st1 with
            solver := (st1.solver.push).addAssertion (SMTFormula.neq x (SMTExpr.const 0)) }
        body with _ | ⟨b2, stB⟩
    · simp only [hv] at h
      exact Option.noConfusion h
    · exact absurd (hbody.symm.trans hv) (by simp)
  case refine_8 =>
    intro st cond body x st1 henc sA sB sC sD sE body' st2 hbody ih s' st' h
    rw [visitStatement.eq_def] at h
    simp only [henc, pop_addAssertion_push] at h
    rcases hv : visitStatements
        { st1 with
            solver := (st1.solver.push).addAssertion (SMTFormula.neq x (SMTExpr.const 0)) }
        body with _ | ⟨b2, stB⟩
    · simp only [hv] at h
      exact Option.noConfusion h
    · simp only [hv, Option.some.injEq, Prod.mk.injEq] at h
      obtain ⟨ho, ht⟩ := ih b2 stB hv
      have hsol : st1.solver = st.solver := encodeExpression_solver _ _ x st1 henc
      have ho' : stB.solver.oracle = st1.solver.oracle := ho
      have ht' : stB.solver.frames.tail = st1.solver.frames := ht
      rw [← h.2]
      constructor
      · show stB.solver.pop.oracle = st.solver.oracle
        rw [show stB.solver.pop.oracle = stB.solver.oracle from rfl, ho', hsol]
      · show stB.solver.pop.frames.tail = st.solver.frames.tail
        rw [show stB.solver.pop.frames = stB.solver.frames.tail from rfl, ht', hsol]
  case refine_9 =>
    intro st s' st' h
    rw [visitStatement.eq_def] at h
    simp only [Option.some.injEq, Prod.mk.injEq] at h
    rw [← h.2]
    exact ⟨rfl, rfl⟩
  case refine_10 =>
    intro st l' st' h
    simp only [visitStatements, Option.some.injEq, Prod.mk.injEq] at h
    rw [← h.2]
    exact ⟨rfl, rfl⟩
  case refine_11 =>
    intro st s rest hnone ih l' st' h
    simp only [visitStatements, hnone] at h
    exact Option.noConfusion h
  case refine_12 =>
    intro st s rest s1 st1 hsome hnone ih1 ih2 l' st' h
    simp only [visitStatements, hsome, hnone] at h
    exact Option.noConfusion h
  case refine_13 =>
    intro st s rest s1 st1 hsome body' st2 hsome2 ih1 ih2 l' st' h
    simp only [visitStatements, hsome, hsome2, Option.some.injEq, Prod.mk.injEq] at h
    obtain ⟨ho1, ht1⟩ := ih1 s1 st1 hsome
    obtain ⟨ho2, ht2⟩ := ih2 body' st2 hsome2
    rw [← h.2]
    exact ⟨ho2.trans ho1, ht2.trans ht1⟩

theorem solver_ext (s t : Solver) (hf : s.frames = t.frames) (ho : s.oracle = t.oracle) :
    s = t := by
  cases s
  cases t
  cases hf
  cases ho
  rfl

/-- Claim C8: a successful visit of an `If` decomposes as: encode the
condition (solver untouched), run both hypothetical scopes balanced
(push/pop), visit the body under exactly the taken-branch assumption
`condition != 0` pushed on top of the entry stack, and pop it on exit — so
the final solver state equals the entry solver state exactly (same
assumption stack, same depth), and no branch assumption leaks to siblings
or parents. -/
theorem claim_C8_scope_balance (st : RBSState) (cond : YulExpression)
    (body : List YulStatement) (s' : YulStatement) (st' : RBSState)
    (hrun : visitStatement st (.ifStmt cond body) = some (s', st')) :
    ∃ condEnc st1 body' st2,
      encodeExpression st cond = some (condEnc, st1)
      ∧ st1.solver = st.solver
      ∧ visitStatements
          { st1 with
              solver := (st1.solver.push).addAssertion (.neq condEnc (.const 0)) } body
          = some (body', st2)
      ∧ st' = { st2 with solver := st2.solver.pop }
      ∧ st'.solver = st.solver
      ∧ st'.solver.frames.length = st.solver.frames.length := by
  rw [visitStatement.eq_def] at hrun
  rcases he : encodeExpression st cond with _ | ⟨condEnc, st1⟩
  · simp only [he] at hrun
    exact Option.noConfusion hrun
  · simp only [he, pop_addAssertion_push] at hrun
    rcases hv : visitStatements
        { st1 with
            solver := (st1.solver.push).addAssertion
              (SMTFormula.neq condEnc (SMTExpr.const 0)) } body with _ | ⟨body', st2⟩
    · simp only [hv] at hrun
      exact Option.noConfusion hrun
    · simp only [hv, Option.some.injEq, Prod.mk.injEq] at hrun
      have hsol : st1.solver = st.solver := encodeExpression_solver st cond condEnc st1 he
      obtain ⟨ho, ht⟩ := visitStatements_solver _ body body' st2 hv
      have ho' : st2.solver.oracle = st1.solver.oracle := ho
      have ht' : st2.solver.frames.tail = st1.solver.frames := ht
      have hfull : st2.solver.pop = st.solver := by
        refine solver_ext _ _ ?_ ?_
        · rw [show st2.solver.pop.frames = st2.solver.frames.tail from rfl, ht', hsol]
        · rw [show st2.solver.pop.oracle = st2.solver.oracle from rfl, ho', hsol]
      refine ⟨condEnc, st1, body', st2, rfl, hsol, hv, hrun.2.symm, ?_, ?_⟩
      · rw [← hrun.2]
        exact hfull
      · rw [← hrun.2]
        show st2.solver.pop.frames.length = st.solver.frames.length
        rw [hfull]

/-- Witness for claim C8 on a concrete `If`: the solver stack depth after
the visit equals the depth before. -/
theorem claim_C8_witness :
    visitStatement sampleRBS (.ifStmt (.lit 1) []) =
      some (.ifStmt (.lit 1) [],
        { sampleRBS with
            solver := ((sampleRBS.solver.push).addAssertion
              (.neq (.const 1) (.const 0))).pop })
    ∧ (({ sampleRBS with
            solver := ((sampleRBS.solver.push).addAssertion
              (.neq (.const 1) (.const 0))).pop } : RBSState)).solver.frames.length
        = sampleRBS.solver.frames.length := by
  have hrun : visitStatement sampleRBS (.ifStmt (.lit 1) []) =
      some (.ifStmt (.lit 1) [],
        { sampleRBS with
            solver := ((sampleRBS.solver.push).addAssertion
              (.neq (.const 1) (.const 0))).pop }) := by
    simp [visitStatement, encodeExpression, visitStatements, Solver.check,
      Solver.assertions, unknownOracle, sampleRBS, Solver.push, Solver.pop,
      Solver.addAssertion]
  obtain ⟨ce, st1, b', st2, h1, h2, h3, h4, h5, h6⟩ :=
    claim_C8_scope_balance sampleRBS (.lit 1) [] _ _ hrun
  exact ⟨hrun, h6⟩

/-! ### Claim C9: total formula encoding -/

/-- The three instructions the encoder maps to logical operators. -/
def supportedInstruction : Instruction → Bool
  | .LT => true
  | .GT => true
  | .ADD => true
  | _ => false

mutual

/-- Well-formed (analyzer-checked) Yul expressions: every call to one of
the specially encoded builtins carries exactly its two arguments — the
invariant the upstream Yul analyzer guarantees and that `vector::at`
relies on. -/
def wfYulExpression : YulExpression → Bool
  | .call fname args =>
    (match evmBuiltinInstruction fname with
     | none => true
     | some i => !supportedInstruction i || args.length == 2)
      && wfYulExpressionList args
  | .ident _ => true
  | .lit _ => true
termination_by e => sizeOf e

/-- Well-formedness of an argument list. -/
def wfYulExpressionList : List YulExpression → Bool
  | [] => true
  | e :: es => wfYulExpression e && wfYulExpressionList es
termination_by es => sizeOf es

end

theorem encodeExpressionList_length :
    ∀ (es : List YulExpression) (st : RBSState) (xs : List SMTExpr) (st' : RBSState),
      encodeExpressionList st es = some (xs, st') → xs.length = es.length := by
  intro es
  induction es with
  | nil =>
    intro st xs st' h
    simp only [encodeExpressionList, Option.some.injEq, Prod.mk.injEq] at h
    rw [← h.1]
    rfl
  | cons e es ih =>
    intro st xs st' h
    rcases he : encodeExpression st e with _ | ⟨x, st1⟩
    · simp only [encodeExpressionList, he] at h
      exact Option.noConfusion h
    · simp only [encodeExpressionList, he] at h
      rcases hl : encodeExpressionList st1 es with _ | ⟨⟨xs2, st2⟩⟩
      · simp only [hl] at h
        exact Option.noConfusion h
      · simp only [hl, Option.some.injEq, Prod.mk.injEq] at h
        rw [← h.1]
        simp only [List.length_cons]
        rw [ih st1 xs2 st2 hl]

theorem encodeExpression_total :
    ∀ (st : RBSState) (e : YulExpression),
      wfYulExpression e = true → (encodeExpression st e).isSome := by
  refine @encodeExpression.induct
    (fun st e => wfYulExpression e = true → (encodeExpression st e).isSome)
    (fun st instr args => wfYulExpressionList args = true →
      (supportedInstruction instr = true → args.length = 2) →
      (encodeBuiltin st instr args).isSome)
    (fun st es => wfYulExpressionList es = true → (encodeExpressionList st es).isSome)
    ?_ ?_ ?_ ?_ ?_ ?_ ?_ ?_ ?_ ?_ ?_ ?_ ?_ ?_ ?_ ?_ ?_ ?_
  · intro st a args instr hbi ih hwf
    rw [wfYulExpression] at hwf
    simp only [hbi, Bool.and_eq_true, Bool.or_eq_true, Bool.not_eq_true',
      beq_iff_eq] at hwf
    rw [encodeExpression.eq_def]
    simp only [hbi]
    refine ih hwf.2 ?_
    intro hsup
    rcases hwf.1 with h | h
    · rw [hsup] at h
      exact Bool.noConfusion h
    · exact h
  · intro st a args hbi hwf
    rw [encodeExpression.eq_def]
    simp only [hbi]
    rfl
  · intro st a hcont val hlook hwf
    simp only [encodeExpression, hcont, hlook, if_true]
    rfl
  · intro st a hcont hlook hwf
    simp only [encodeExpression, hcont, hlook, if_true]
    rfl
  · intro st a hcont hwf
    simp only [Bool.not_eq_true] at hcont
    simp only [encodeExpression, hcont, Bool.false_eq_true, if_false]
    rfl
  · intro st a hwf
    simp only [encodeExpression]
    rfl
  · intro st instr args hlist ih hwf hlen
    exact absurd (ih hwf) (by simp [hlist])
  · intro st args xs st2 hlist x y hg1 hg0 ih hwf hlen
    simp only [encodeBuiltin, hlist, hg0, hg1]
    rfl
  · intro st args xs st2 hlist hfail ih hwf hlen
    have h2 : xs.length = 2 := by
      rw [encodeExpressionList_length args st xs st2 hlist]
      exact hlen rfl
    rcases xs with _ | ⟨a, _ | ⟨b, _ | _⟩⟩ <;> simp at h2
    exact (hfail a b rfl rfl).elim
  · intro st args xs st2 hlist x y hg1 hg0 ih hwf hlen
    simp only [encodeBuiltin, hlist, hg0, hg1]
    rfl
  · intro st args xs st2 hlist hfail ih hwf hlen
    have h2 : xs.length = 2 := by
      rw [encodeExpressionList_length args st xs st2 hlist]
      exact hlen rfl
    rcases xs with _ | ⟨a, _ | ⟨b, _ | _⟩⟩ <;> simp at h2
    exact (hfail a b rfl rfl).elim
  · intro st args xs st2 hlist x y hg1 hg0 ih hwf hlen
    simp only [encodeBuiltin, hlist, hg0, hg1]
    rfl
  · intro st args xs st2 hlist hfail ih hwf hlen
    have h2 : xs.length = 2 := by
      rw [encodeExpressionList_length args st xs st2 hlist]
      exact hlen rfl
    rcases xs with _ | ⟨a, _ | ⟨b, _ | _⟩⟩ <;> simp at h2
    exact (hfail a b rfl rfl).elim
  · intro st instr args xs st2 hlist hn1 hn2 hn3 ih hwf hlen
    cases instr with
    | LT => exact absurd rfl hn1
    | GT => exact absurd rfl hn2
    | ADD => exact absurd rfl hn3
    | MUL =>
      simp only [encodeBuiltin, hlist]
      rfl
    | SUB =>
      simp only [encodeBuiltin, hlist]
      rfl
    | DIV =>
      simp only [encodeBuiltin, hlist]
      rfl
    | ISZERO =>
      simp only [encodeBuiltin, hlist]
      rfl
  · intro st hwf
    simp only [encodeExpressionList]
    rfl
  · intro st e es hnone ih hwf
    rw [wfYulExpressionList] at hwf
    simp only [Bool.and_eq_true] at hwf
    exact absurd (ih hwf.1) (by simp [hnone])
  · intro st e es x st1 hsome hnone ih1 ih3 hwf
    rw [wfYulExpressionList] at hwf
    simp only [Bool.and_eq_true] at hwf
    exact absurd (ih3 hwf.2) (by simp [hnone])
  · intro st e es x st1 hsome xs2 st2 hsome2 ih1 ih3 hwf
    simp only [encodeExpressionList, hsome, hsome2]
    rfl

/-- Claim C9: formula encoding is total on analyzer-checked input and never
fails: a numeric literal encodes to its exact integer value; a tracked
single-assignment identifier encodes to its bound logical variable; any
other identifier encodes to a fresh unconstrained variable; a call to a
non-builtin encodes to a fresh unconstrained variable; and a call to any
builtin other than `lt`, `gt`, `add` encodes to a fresh unconstrained
variable (after encoding its arguments). -/
theorem claim_C9_encoding_total (st : RBSState) :
    (∀ n, encodeExpression st (.lit n) = some (.const n, st))
    ∧ (∀ name v, st.ssaVariables.contains name = true →
        lookupVar st.varMap name = some v →
        encodeExpression st (.ident name) = some (v, st))
    ∧ (∀ name, st.ssaVariables.contains name = false →
        encodeExpression st (.ident name) =
          some (.var (uniqueName st.varCounter),
            { st with varCounter := st.varCounter + 1 }))
    ∧ (∀ name, lookupVar st.varMap name = none →
        encodeExpression st (.ident name) =
          some (.var (uniqueName st.varCounter),
            { st with varCounter := st.varCounter + 1 }))
    ∧ (∀ fname args, evmBuiltinInstruction fname = none →
        encodeExpression st (.call fname args) =
          some (.var (uniqueName st.varCounter),
            { st with varCounter := st.varCounter + 1 }))
    ∧ (∀ fname args i, evmBuiltinInstruction fname = some i →
        supportedInstruction i = false →
        ∀ xs st1, encodeExpressionList st args = some (xs, st1) →
          encodeExpression st (.call fname args) =
            some (.var (uniqueName st1.varCounter),
              { st1 with varCounter := st1.varCounter + 1 }))
    ∧ (∀ e, wfYulExpression e = true → (encodeExpression st e).isSome) := by
  refine ⟨?_, ?_, ?_, ?_, ?_, ?_, fun e => encodeExpression_total st e⟩
  · intro n
    simp [encodeExpression]
  · intro name v hcont hlook
    have hmem : name ∈ st.ssaVariables := by simpa using hcont
    simp [encodeExpression, hmem, hlook]
  · intro name hcont
    have hmem : name ∉ st.ssaVariables := by simpa using hcont
    simp [encodeExpression, hmem, newVariable]
  · intro name hlook
    by_cases hmem : name ∈ st.ssaVariables
    · simp [encodeExpression, hmem, hlook, newVariable]
    · simp [encodeExpression, hmem, newVariable]
  · intro fname args hbi
    rw [encodeExpression.eq_def]
    simp [hbi, newVariable]
  · intro fname args i hbi hsup xs st1 hlist
    rw [encodeExpression.eq_def]
    simp only [hbi]
    cases i with
    | LT => exact absurd hsup (by simp [supportedInstruction])
    | GT => exact absurd hsup (by simp [supportedInstruction])
    | ADD => exact absurd hsup (by simp [supportedInstruction])
    | MUL => simp [encodeBuiltin, hlist, newVariable]
    | SUB => simp [encodeBuiltin, hlist, newVariable]
    | DIV => simp [encodeBuiltin, hlist, newVariable]
    | ISZERO => simp [encodeBuiltin, hlist, newVariable]

/-- Witness for claim C9: concrete encodings of a literal, an unknown
identifier, a non-builtin call and totality on a well-formed `add` call. -/
theorem claim_C9_witness :
    encodeExpression sampleRBS (.lit 7) = some (.const 7, sampleRBS)
    ∧ encodeExpression sampleRBS (.call "keccak256" []) =
        some (.var (uniqueName sampleRBS.varCounter),
          { sampleRBS with varCounter := sampleRBS.varCounter + 1 })
    ∧ (encodeExpression sampleRBS (.call "add" [.lit 1, .lit 2])).isSome := by
  refine ⟨(claim_C9_encoding_total sampleRBS).1 7, ?_, ?_⟩
  · exact (claim_C9_encoding_total sampleRBS).2.2.2.2.1 "keccak256" [] rfl
  · refine (claim_C9_encoding_total sampleRBS).2.2.2.2.2.2 _ ?_
    simp [wfYulExpression, wfYulExpressionList, evmBuiltinInstruction]
